import Mathlib

/-!
Verification of the dua-cli traversal/aggregation engine.

Shallow embedding of `src/aggregate.rs`, `src/traverse.rs`, `src/common.rs` and the
capability interfaces of `src/fs_walk/mod.rs`.  Machine integers (`u64`, `u128`,
`usize`) are modelled as `Nat`: every arithmetic operation performed by the code on
them is an increment, a bounded min/max against the `u128` sentinel, or a sum of
file sizes, none of which can wrap for any input the types of the embedding can
denote (sizes are single values added up; the `u128::max_value()` sentinel is kept
explicit as `U128_MAX`).  I/O side effects (progress writes to stderr, the
`log.txt` debug file) and wall-clock fields (`start`, `elapsed`) are not modelled;
the background-timer throttle is modelled by an explicit oracle `fires : Nat → Bool`
indexed by the number of entries traversed, which captures every possible firing
pattern of the timer.
-/

deriving instance DecidableEq for Except
deriving instance Repr for Except

namespace Dua

/-! ## Capability interfaces (src/fs_walk/mod.rs)

`Metadata` and `Entry` mirror the traits; fallible accessors return `Except Unit`
(the error payload is never inspected by the core).  `PathBuf` is modelled as
`String`. -/

structure Metadata where
  is_dir : Bool
  dev : Nat
  ino : Nat
  nlink : Nat
  apparent_size : Nat
  size_on_disk : Except Unit Nat
  modified : Except Unit Nat

deriving DecidableEq, Repr

structure Entry where
  depth : Nat
  path : String
  file_name : String
  parent_path : String
  metadata : Option (Except Unit Metadata)

deriving DecidableEq, Repr

/-- `WalkOptions` (src/fs_walk/mod.rs).  Only the fields read by `aggregate` and
`Traversal::from_walker` are modelled; `byte_format`, `sorting` and `ignore_dirs`
configure the external enumerator / output formatting and are never read by the
core under verification.  `threads` is carried but has no semantic effect (it only
sizes the enumerator's worker pool). -/
structure WalkOptions where
  threads : Nat := 0
  count_hard_links : Bool := false
  apparent_size : Bool := false
  cross_filesystems : Bool := false

deriving DecidableEq, Repr

/-- A `Walker` restricted to one root path: the device id answered by
`Walker::device_id` for that path and the entry stream produced by
`Walker::into_iter`.  A walk input is a list of these, one per input root, in
order. -/
structure Root where
  path : String
  device_id : Except Unit Nat
  entries : List (Except Unit Entry)

deriving DecidableEq, Repr

/-- Modelled from the spec: `src/inodefilter.rs` is declared by `lib.rs`
(`mod inodefilter; pub(crate) use inodefilter::InodeFilter;`) but its source is not
part of the snapshot.  Spec §4.2: "`add(dev, ino, nlink) -> bool`: returns true the
first time a given (dev, ino) is observed, false on subsequent observations;
entries with `nlink <= 1` may be short-circuited as always-true for efficiency.
No removal."  The filter state is the set of observed (dev, ino) pairs. -/
abbrev InodeFilter : Type := List (Nat × Nat)

/-- Modelled from the spec (§4.2), see `InodeFilter`. -/
def InodeFilter.add_raw (s : InodeFilter) (dev ino nlink : Nat) : Bool × InodeFilter :=
  if nlink ≤ 1 then (true, s)
  else if (dev, ino) ∈ s then (false, s)
  else (true, (dev, ino) :: s)

/-- Modelled from the spec: `src/crossdev.rs` is declared by `lib.rs`
(`pub mod crossdev;`) but its source is not part of the snapshot.  Spec glossary /
§4.5: the cross-device gate passes when the "entry device equals the root's device
id". -/
def crossdev.is_same_device_raw (device_id dev : Nat) : Bool := device_id == dev

/-! ## Common result types (src/common.rs, src/aggregate.rs)

Note: the `common.rs` revision in the snapshot shows only `num_errors`, but
`aggregate` reads and its tests assert `num_roots` and `total` as well (spec §3
lists all three), so the struct is modelled with the three fields `aggregate`
uses. -/

structure WalkResult where
  num_roots : Nat := 0
  num_errors : Nat := 0
  total : Nat := 0

deriving DecidableEq, Repr

/-- Statistics obtained during a filesystem walk (src/aggregate.rs). -/
structure Statistics where
  entries_traversed : Nat := 0
  smallest_file_in_bytes : Nat := 0
  largest_file_in_bytes : Nat := 0

deriving DecidableEq, Repr

/-- `u128::max_value()`, the sentinel that `aggregate` seeds
`smallest_file_in_bytes` with. -/
def U128_MAX : Nat := 2 ^ 128 - 1

/-! ## The flat aggregator (src/aggregate.rs, `aggregate`) -/

/-- The hard-link part of the guard on lines 52-53 of aggregate.rs:
`walk_options.count_hard_links || inodes.add_raw(m.dev(), m.ino(), m.nlink())`.
Rust `||` short-circuits, so the filter is consulted (and mutated) only when
`count_hard_links` is false. -/
def hard_link_gate (opts : WalkOptions) (inodes : InodeFilter) (m : Metadata) :
    Bool × InodeFilter :=
  if opts.count_hard_links then (true, inodes)
  else inodes.add_raw m.dev m.ino m.nlink

/-- The whole guard of the `Some(Ok(ref m)) if ...` match arm (aggregate.rs
lines 50-55, identically traverse.rs lines 129-134): not a directory, hard-link
gate, cross-device gate.  Rust `&&` short-circuits: for a directory the filter is
never consulted; when the hard-link gate fails the cross-device check is skipped;
when the hard-link gate succeeds its mutation of the filter persists even if the
cross-device check then fails. -/
def entry_gate (opts : WalkOptions) (device_id : Nat) (inodes : InodeFilter)
    (m : Metadata) : Bool × InodeFilter :=
  if m.is_dir then (false, inodes)
  else
    let hl := hard_link_gate opts inodes m
    if hl.1 then
      ((opts.cross_filesystems || crossdev.is_same_device_raw device_id m.dev), hl.2)
    else (false, hl.2)

/-- The size chosen for a counted entry (aggregate.rs lines 57-64): apparent size
when the option is set, otherwise size-on-disk with a fetch failure contributing 0
and flagging one error (the second component). -/
def chosen_size (opts : WalkOptions) (m : Metadata) : Nat × Bool :=
  if opts.apparent_size then (m.apparent_size, false)
  else
    match m.size_on_disk with
    | .ok s => (s, false)
    | .error _ => (0, true)

/-- The per-entry computation of aggregate.rs lines 49-72: the `file_size` added to
the totals and min/max statistics, the number of errors counted for this entry, and
the updated inode-filter state. -/
def aggregate_file_size (opts : WalkOptions) (device_id : Nat) (inodes : InodeFilter)
    (e : Entry) : Nat × Nat × InodeFilter :=
  match e.metadata with
  | some (.ok m) =>
    let g := entry_gate opts device_id inodes m
    if g.1 then
      let s := chosen_size opts m
      (s.1, if s.2 then 1 else 0, g.2)
    else (0, 0, g.2)
  | some (.error _) => (0, 1, inodes)
  | none => (0, 0, inodes)

/-- Per-root loop state of `aggregate`: the global statistics and inode filter plus
the root-local `num_bytes` and `num_errors`. -/
structure AggRootState where
  stats : Statistics
  inodes : InodeFilter
  num_bytes : Nat
  num_errors : Nat

deriving DecidableEq, Repr

/-- One iteration of the entry loop of `aggregate` (aggregate.rs lines 40-78).
`entries_traversed` is incremented for every item pulled, including `Err` items;
the min/max statistics are updated with the computed `file_size` of every `Ok`
item (directories and non-counted entries contribute 0); `Err` items only count an
error.  The throttled progress write to stderr is pure I/O and not modelled. -/
def aggregate_entry (opts : WalkOptions) (device_id : Nat) (st : AggRootState)
    (item : Except Unit Entry) : AggRootState :=
  let st := { st with stats.entries_traversed := st.stats.entries_traversed + 1 }
  match item with
  | .ok e =>
    let r := aggregate_file_size opts device_id st.inodes e
    { st with
      stats := { st.stats with
        largest_file_in_bytes := max st.stats.largest_file_in_bytes r.1,
        smallest_file_in_bytes := min st.stats.smallest_file_in_bytes r.1 },
      inodes := r.2.2,
      num_bytes := st.num_bytes + r.1,
      num_errors := st.num_errors + r.2.1 }
  | .error _ => { st with num_errors := st.num_errors + 1 }

/-- Whole-`aggregate` loop state. -/
structure AggState where
  res : WalkResult
  stats : Statistics
  aggregates : List (String × Nat × Nat)
  inodes : InodeFilter

deriving DecidableEq, Repr

/-- One iteration of the root loop of `aggregate` (aggregate.rs lines 27-89).  A
device-id failure counts one error for the root and one for the overall result,
pushes a `(path, 0, 1)` record and continues without touching the entry stream;
otherwise the root's entries are folded and the record, total and error count are
merged. -/
def aggregate_root (opts : WalkOptions) (st : AggState) (root : Root) : AggState :=
  let res := { st.res with num_roots := st.res.num_roots + 1 }
  match root.device_id with
  | .error _ =>
    { st with
      res := { res with num_errors := res.num_errors + 1 },
      aggregates := st.aggregates ++ [(root.path, 0, 1)] }
  | .ok device_id =>
    let r := root.entries.foldl (aggregate_entry opts device_id)
      { stats := st.stats, inodes := st.inodes, num_bytes := 0, num_errors := 0 }
    { res := { res with
        total := res.total + r.num_bytes,
        num_errors := res.num_errors + r.num_errors },
      stats := r.stats,
      aggregates := st.aggregates ++ [(root.path, r.num_bytes, r.num_errors)],
      inodes := r.inodes }

/-- Ascending comparison on the byte component used by
`aggregates.sort_by_key(|&(_, num_bytes, _)| num_bytes)`; Rust's `sort_by_key` is a
stable sort, modelled by `List.mergeSort` (which is stable). -/
def recordLE (a b : String × Nat × Nat) : Bool := Nat.ble a.2.1 b.2.1

/-- `aggregate` (aggregate.rs lines 11-100).  Returns
`(WalkResult, Statistics, [(path, bytes, errors)])`. -/
def aggregate (opts : WalkOptions) (sort_by_size_in_bytes : Bool)
    (paths : List Root) : WalkResult × Statistics × List (String × Nat × Nat) :=
  let st0 : AggState :=
    { res := {}, stats := { smallest_file_in_bytes := U128_MAX },
      aggregates := [], inodes := ([] : List (Nat × Nat)) }
  let st := paths.foldl (aggregate_root opts) st0
  let stats :=
    if st.stats.entries_traversed = 0 then
      { st.stats with smallest_file_in_bytes := 0 }
    else st.stats
  let aggregates :=
    if sort_by_size_in_bytes then st.aggregates.mergeSort recordLE
    else st.aggregates
  (st.res, stats, aggregates)

/-! ## Spec-side reference view of the flat aggregator

These definitions follow the wording of spec §4.5 and the claims: an entry is
counted exactly when it has successfully-retrieved metadata, is not a directory,
passes the hard-link gate (`count_hard_links` set, or first observation of the
(dev, ino) pair, with `nlink <= 1` always passing) and passes the cross-device
gate (`cross_filesystems` set, or entry device equal to the root's device id); a
counted entry contributes its apparent size or size-on-disk (0 on a size-fetch
failure, which also counts one error). -/

/-- Spec-side verdict on one `Ok` entry: `(counted size?, error?, observed set)`. -/
def specCounted (opts : WalkOptions) (device_id : Nat) (seen : InodeFilter)
    (e : Entry) : Option Nat × Bool × InodeFilter :=
  match e.metadata with
  | some (.ok m) =>
    if m.is_dir then (none, false, seen)
    else
      let hl : Bool × InodeFilter :=
        if opts.count_hard_links then (true, seen)
        else if m.nlink ≤ 1 then (true, seen)
        else if (m.dev, m.ino) ∈ seen then (false, seen)
        else (true, (m.dev, m.ino) :: seen)
      if hl.1 && (opts.cross_filesystems || device_id == m.dev) then
        if opts.apparent_size then (some m.apparent_size, false, hl.2)
        else
          match m.size_on_disk with
          | .ok s => (some s, false, hl.2)
          | .error _ => (some 0, true, hl.2)
      else (none, false, hl.2)
  | some (.error _) => (none, true, seen)
  | none => (none, false, seen)

/-- Spec-side view of one root's entry stream: the counted sizes (claim C1's
multiset), the computed size of every `Ok` entry (what feeds the min/max
statistics; 0 for directories, gated-out entries and failures), the number of
errors, and the number of items pulled (including `Err` items). -/
structure RootView where
  counted : List Nat
  sizes : List Nat
  errs : Nat
  items : Nat

deriving DecidableEq, Repr

def specRootAcc (opts : WalkOptions) (did : Nat) :
    InodeFilter → List (Except Unit Entry) → RootView × InodeFilter
  | seen, [] => (⟨[], [], 0, 0⟩, seen)
  | seen, .error _ :: rest =>
    let r := specRootAcc opts did seen rest
    ({ r.1 with errs := r.1.errs + 1, items := r.1.items + 1 }, r.2)
  | seen, .ok e :: rest =>
    let c := specCounted opts did seen e
    let r := specRootAcc opts did c.2.2 rest
    ({ counted := c.1.toList ++ r.1.counted,
       sizes := c.1.getD 0 :: r.1.sizes,
       errs := (if c.2.1 then 1 else 0) + r.1.errs,
       items := r.1.items + 1 }, r.2)

/-- Spec-side view of a whole walk: the per-root `(path, bytes, errors)` records in
input order (a device-id failure yields `(path, 0, 1)` without touching the
stream), all computed entry sizes, and the total number of items pulled. -/
structure WalkView where
  recs : List (String × Nat × Nat)
  sizes : List Nat
  items : Nat

deriving DecidableEq, Repr

def specWalk (opts : WalkOptions) :
    InodeFilter → List Root → WalkView × InodeFilter
  | seen, [] => (⟨[], [], 0⟩, seen)
  | seen, r :: rest =>
    match r.device_id with
    | .error _ =>
      let w := specWalk opts seen rest
      ({ w.1 with recs := (r.path, 0, 1) :: w.1.recs }, w.2)
    | .ok did =>
      let v := specRootAcc opts did seen r.entries
      let w := specWalk opts v.2 rest
      ({ recs := (r.path, v.1.sizes.sum, v.1.errs) :: w.1.recs,
         sizes := v.1.sizes ++ w.1.sizes,
         items := v.1.items + w.1.items }, w.2)

/-- The per-root counted totals of the spec: the sum of the counted sizes of
exactly the entries that pass the C1 filter, per root in input order, 0 for a root
whose device id cannot be resolved; the observed-inode set threads through the
whole invocation. -/
def specCountedTotals (opts : WalkOptions) : InodeFilter → List Root → List Nat
  | _, [] => []
  | seen, r :: rest =>
    match r.device_id with
    | .error _ => 0 :: specCountedTotals opts seen rest
    | .ok did =>
      (specRootAcc opts did seen r.entries).1.counted.sum ::
        specCountedTotals opts (specRootAcc opts did seen r.entries).2 rest

/-- The computed sizes of the non-directory `Ok` entries only — the population the
claim says the min/max statistics range over. -/
def specNonDirSizes (opts : WalkOptions) (did : Nat) :
    InodeFilter → List (Except Unit Entry) → List Nat
  | _, [] => []
  | seen, .error _ :: rest => specNonDirSizes opts did seen rest
  | seen, .ok e :: rest =>
    let c := specCounted opts did seen e
    match e.metadata with
    | some (.ok m) =>
      if m.is_dir then specNonDirSizes opts did c.2.2 rest
      else c.1.getD 0 :: specNonDirSizes opts did c.2.2 rest
    | _ => specNonDirSizes opts did c.2.2 rest

/-- A metadata record with all hard-link/device fields zero, apparent size 0 and
the given directory flag and size-on-disk. -/
def simpleMeta (isd : Bool) (sod : Nat) : Metadata :=
  { is_dir := isd, dev := 0, ino := 0, nlink := 0, apparent_size := 0,
    size_on_disk := .ok sod, modified := .ok 0 }

/-- A depth-0 entry with `simpleMeta`. -/
def simpleEntry (isd : Bool) (name : String) (sod : Nat) : Entry :=
  { depth := 0, path := name, file_name := name, parent_path := "",
    metadata := some (.ok (simpleMeta isd sod)) }

/-- The C2 counterexample root: one non-directory file of size 5 followed by a
directory entry. -/
def c2Root : Root :=
  { path := "test", device_id := .ok 0,
    entries := [.ok (simpleEntry false "a.txt" 5), .ok (simpleEntry true "d" 7)] }

/-- An entry for a hard-linked file: `nlink` links, on device `dev` with inode
`ino`, both size notions equal to `s`. -/
def hlEntry (name : String) (dev ino nlink s : Nat) : Entry :=
  { depth := 0, path := name, file_name := name, parent_path := "",
    metadata := some (.ok (Metadata.mk false dev ino nlink s (.ok s) (.ok 0))) }

/-- Two-root input whose unsorted records are `[("a", 10, 0), ("b", 20, 0)]`. -/
def c5Roots : List Root :=
  [ { path := "a", device_id := .ok 0,
      entries := [.ok (simpleEntry false "x" 10)] },
    { path := "b", device_id := .ok 0,
      entries := [.ok (simpleEntry false "y" 20)] } ]

/-! ## The tree builder (src/traverse.rs)

The petgraph `StableGraph` is used by `from_walker` as an arena: nodes are only
ever added (never removed), `add_node` hands out consecutive indices, each node
receives exactly one incoming edge (added right after its creation), and
`neighbors_directed(i, Incoming).next()` returns the node's unique parent.  The
tree is therefore modelled as an array of `(EntryData, parent index)` records.
The `log.txt` debug file and the `start`/`elapsed` wall-clock fields are pure I/O
/ real time and are not modelled.  The `Throttle` is modelled by the oracle
`fires : Nat → Bool`, consulted once per entry (indexed by the value of
`entries_traversed` at the check), which covers every possible timer behaviour.
A `panic!` of the three `*_or_panic` helpers is modelled as the `RunExit.abort`
outcome. -/

structure EntryData where
  name : String
  size : Nat
  mtime : Nat
  metadata_io_error : Bool

deriving DecidableEq, Repr

/-- `EntryData::default()`: empty name, size 0, `UNIX_EPOCH` (modelled 0), no
error. -/
def EntryData.default : EntryData :=
  { name := "", size := 0, mtime := 0, metadata_io_error := false }

structure TreeNode where
  data : EntryData
  parent : Option Nat

deriving DecidableEq, Repr

structure Tree where
  nodes : Array TreeNode

deriving DecidableEq, Repr

/-- `tree.add_node(data)`: appends a node (initially without incoming edge) and
returns its index. -/
def Tree.add_node (t : Tree) (d : EntryData) : Tree × Nat :=
  ({ nodes := t.nodes.push { data := d, parent := none } }, t.nodes.size)

/-- `tree.add_edge(p, c, ())`: in `from_walker`, `c` is always the node just
created, so the edge records `c`'s unique parent. -/
def Tree.add_edge (t : Tree) (p c : Nat) : Tree :=
  { nodes := t.nodes.modify c (fun n => { n with parent := some p }) }

/-- `neighbors_directed(i, Incoming).next()`. -/
def Tree.parentOf (t : Tree) (i : Nat) : Option Nat :=
  (t.nodes[i]?).bind (fun n => n.parent)

/-- The outgoing-neighbor set of `i`: all nodes whose unique incoming edge comes
from `i`. -/
def Tree.children (t : Tree) (i : Nat) : List Nat :=
  (List.range t.nodes.size).filter (fun j => t.parentOf j == some i)

/-- `get_size_or_panic` (common.rs); total on the indices it is ever applied to
(node indices of the tree). -/
def Tree.sizeAt (t : Tree) (i : Nat) : Nat :=
  ((t.nodes[i]?).map (fun n => n.data.size)).getD 0

/-- `set_size_or_panic` (traverse.rs lines 241-245): `none` models the panic on a
missing node. -/
def set_size_or_panic (t : Tree) (i s : Nat) : Option Tree :=
  if i < t.nodes.size then
    some { nodes := t.nodes.modify i (fun n => { n with data.size := s }) }
  else none

/-- `parent_or_panic` (traverse.rs lines 247-251): `none` models the panic on a
parentless node. -/
def parent_or_panic (t : Tree) (i : Nat) : Option Nat := t.parentOf i

/-- `pop_or_panic` (traverse.rs lines 253-255): `none` models the panic on an
empty size stack. -/
def pop_or_panic : List Nat → Option (Nat × List Nat)
  | [] => none
  | x :: xs => some (x, xs)

/-- The result of a traversal (traverse.rs `Traversal`); `start`/`elapsed` are
wall-clock and not modelled. -/
structure Traversal where
  tree : Tree
  root_index : Nat
  entries_traversed : Nat
  io_errors : Nat
  total_bytes : Option Nat

deriving DecidableEq, Repr

/-- How `from_walker` can come out: `abort` models a panic of one of the
`*_or_panic` helpers, `cancelled` models `Ok(None)` (the update callback asked to
stop), `errored` models `Err(_)` propagated from the update callback by
`update(&mut t)?`. -/
inductive RunExit where
  | abort
  | cancelled
  | errored

deriving DecidableEq, Repr

/-- The loop state of `from_walker`. -/
structure WalkState where
  t : Traversal
  previous_node_idx : Nat
  parent_node_idx : Nat
  sizes_per_depth_level : List Nat
  current_size_at_depth : Nat
  previous_depth : Nat
  inodes : InodeFilter

deriving DecidableEq, Repr

/-- The `(n, p) if n < p` arm (traverse.rs lines 170-180): for each level stepped
out of, finalize the parent's size from the current accumulator, fold the popped
accumulator in and move the parent up.  The list head is the stack top. -/
def mid_unwind : Nat → Tree → Nat → List Nat → Nat →
    Except RunExit (Tree × Nat × List Nat × Nat)
  | 0, tree, parent, stack, cur => .ok (tree, parent, stack, cur)
  | k + 1, tree, parent, stack, cur =>
    match set_size_or_panic tree parent cur with
    | none => .error .abort
    | some tree =>
      match pop_or_panic stack with
      | none => .error .abort
      | some (a, stack) =>
        match parent_or_panic tree parent with
        | none => .error .abort
        | some p => mid_unwind k tree p stack (cur + a)

/-- The loop after all roots (traverse.rs lines 220-224): pop, fold, finalize,
move up, `previous_depth` times. -/
def final_unwind : Nat → Tree → Nat → List Nat → Nat →
    Except RunExit (Tree × Nat)
  | 0, tree, parent, _stack, _cur => .ok (tree, parent)
  | k + 1, tree, parent, stack, cur =>
    match pop_or_panic stack with
    | none => .error .abort
    | some (a, stack) =>
      match set_size_or_panic tree parent (cur + a) with
      | none => .error .abort
      | some tree =>
        match parent_or_panic tree parent with
        | none => .error .abort
        | some p => final_unwind k tree p stack (cur + a)

/-- The metadata accounting of the `Ok` arm (traverse.rs lines 125-162):
`(file_size, io-error increment, metadata_io_error flag, mtime, filter state)`.
The guard is `entry_gate` (shared with `aggregate`); the apparent-size branch
cannot fail; a size-on-disk failure and a `modified()` failure each add one error
and set the flag; a metadata error adds one error and sets the flag; absent
metadata (a directory the walker declined to stat) contributes nothing. -/
def entry_accounting (opts : WalkOptions) (device_id : Nat)
    (inodes : InodeFilter) (e : Entry) : Nat × Nat × Bool × Nat × InodeFilter :=
  match e.metadata with
  | some (.ok m) =>
    let g := entry_gate opts device_id inodes m
    let fs := if g.1 then chosen_size opts m else (0, false)
    let mt : Nat × Bool :=
      match m.modified with
      | .ok v => (v, false)
      | .error _ => (0, true)
    (fs.1, (if fs.2 then 1 else 0) + (if mt.2 then 1 else 0),
      fs.2 || mt.2, mt.1, g.2)
  | some (.error _) => (0, 1, true, 0, inodes)
  | none => (0, 0, false, 0, inodes)

/-- The throttled cancellation check at the bottom of the entry loop
(traverse.rs lines 212-214): when the throttle fires, an `Err` from the update
callback aborts the whole call with that error and a `true` discards everything
(`Ok(None)`). -/
def check_update (update : Traversal → Except Unit Bool) (fires : Nat → Bool)
    (st : WalkState) : Except RunExit WalkState :=
  if fires st.t.entries_traversed then
    match update st.t with
    | .error _ => .error .errored
    | .ok true => .error .cancelled
    | .ok false => .ok st
  else .ok st

/-- The `Ok(entry)` arm of the entry loop (traverse.rs lines 118-200): metadata
accounting, the three-way depth match updating the size stack, and creation of
the new node as a child of the current parent. -/
def process_ok_entry (opts : WalkOptions) (path : String) (device_id : Nat)
    (st : WalkState) (entry : Entry) : Except RunExit WalkState := do
  let name := if entry.depth < 1 then path else entry.file_name
  let acc := entry_accounting opts device_id st.inodes entry
  let file_size := acc.1
  let st := { st with
    t.io_errors := st.t.io_errors + acc.2.1,
    inodes := acc.2.2.2.2 }
  let w ←
    if entry.depth > st.previous_depth then
      .ok (st.t.tree, st.previous_node_idx,
        st.current_size_at_depth :: st.sizes_per_depth_level, file_size)
    else if entry.depth < st.previous_depth then do
      let r ← mid_unwind (st.previous_depth - entry.depth) st.t.tree
        st.parent_node_idx st.sizes_per_depth_level st.current_size_at_depth
      let cur := r.2.2.2 + file_size
      match set_size_or_panic r.1 r.2.1 cur with
      | none => .error RunExit.abort
      | some tree => .ok (tree, r.2.1, r.2.2.1, cur)
    else
      .ok (st.t.tree, st.parent_node_idx, st.sizes_per_depth_level,
        st.current_size_at_depth + file_size)
  let data : EntryData :=
    { name := name, size := file_size, mtime := acc.2.2.2.1,
      metadata_io_error := acc.2.2.1 }
  let an := Tree.add_node w.1 data
  let tree := an.1.add_edge w.2.1 an.2
  .ok { st with
    t.tree := tree,
    previous_node_idx := an.2,
    parent_node_idx := w.2.1,
    sizes_per_depth_level := w.2.2.1,
    current_size_at_depth := w.2.2.2,
    previous_depth := entry.depth }

/-- The `Err(_)` arm of the entry loop (traverse.rs lines 201-209): a placeholder
node named after the root path when the previous depth is 0, and one more error.
-/
def process_err_entry (path : String) (st : WalkState) : WalkState :=
  let st :=
    if st.previous_depth = 0 then
      let an := Tree.add_node st.t.tree { EntryData.default with name := path }
      { st with t.tree := an.1.add_edge st.parent_node_idx an.2 }
    else st
  { st with t.io_errors := st.t.io_errors + 1 }

/-- One iteration of the entry loop of `from_walker` (traverse.rs lines 111-215).
-/
def process_entry (opts : WalkOptions) (path : String) (device_id : Nat)
    (update : Traversal → Except Unit Bool) (fires : Nat → Bool)
    (st : WalkState) (item : Except Unit Entry) : Except RunExit WalkState := do
  let st := { st with t.entries_traversed := st.t.entries_traversed + 1 }
  let st ←
    match item with
    | .ok entry => process_ok_entry opts path device_id st entry
    | .error _ => .ok (process_err_entry path st)
  check_update update fires st

/-- One iteration of the root loop of `from_walker` (traverse.rs lines 103-216):
a device-id failure counts one error and moves on without touching the stream.
-/
def process_root (opts : WalkOptions) (update : Traversal → Except Unit Bool)
    (fires : Nat → Bool) (st : WalkState) (root : Root) :
    Except RunExit WalkState :=
  match root.device_id with
  | .error _ => .ok { st with t.io_errors := st.t.io_errors + 1 }
  | .ok device_id =>
    root.entries.foldlM (process_entry opts root.path device_id update fires) st

/-- `recompute_root_size` (traverse.rs lines 233-238): the sum of the sizes of the
root's direct children (`get_size_or_panic` is total on them since they are node
indices of the tree). -/
def Traversal.recompute_root_size (t : Traversal) : Nat :=
  ((t.tree.children t.root_index).map (fun i => t.tree.sizeAt i)).sum

/-- The initial loop state of `from_walker` (traverse.rs lines 76-94): a tree
holding only the default-valued root node, previous/parent indices at the root,
empty size stack, depth 0, fresh inode filter. -/
def init_walk_state : WalkState :=
  { t := { tree := (Tree.add_node { nodes := #[] } EntryData.default).1,
           root_index := (Tree.add_node { nodes := #[] } EntryData.default).2,
           entries_traversed := 0, io_errors := 0, total_bytes := none },
    previous_node_idx := (Tree.add_node { nodes := #[] } EntryData.default).2,
    parent_node_idx := (Tree.add_node { nodes := #[] } EntryData.default).2,
    sizes_per_depth_level := [], current_size_at_depth := 0,
    previous_depth := 0, inodes := ([] : List (Nat × Nat)) }

/-- `Traversal::from_walker` (traverse.rs lines 68-231).  The `threads`
adjustment only configures the enumerator pool and has no semantic effect. -/
def Traversal.from_walker (opts : WalkOptions) (input : List Root)
    (update : Traversal → Except Unit Bool) (fires : Nat → Bool) :
    Except RunExit Traversal := do
  let st ← input.foldlM (process_root opts update fires) init_walk_state
  let r ← final_unwind st.previous_depth st.t.tree st.parent_node_idx
    (st.current_size_at_depth :: st.sizes_per_depth_level) 0
  let t := { st.t with tree := r.1 }
  let root_size := t.recompute_root_size
  match set_size_or_panic t.tree t.root_index root_size with
  | none => .error .abort
  | some tree =>
    .ok { t with tree := tree, total_bytes := some root_size }

/-- The C8 counterexample input: the root produces one successful non-directory
entry of size 5 at depth 0, then the stream yields an enumeration error. -/
def c8Root : Root :=
  { path := "test", device_id := .ok 0,
    entries := [.ok (simpleEntry false "a.txt" 5), .error ()] }

/-! ## The Walker contract: pre-order depth-first entry streams

Spec §4.1/§6: "entries for one root are produced in a valid pre-order
depth-first order — a directory's children are fully emitted (recursively)
before any sibling at the directory's own depth or shallower is emitted", with
depth 0 for the root.  Such a stream is exactly an interleaving of enumeration
errors into the pre-order flattening of a forest of entries whose depth fields
match their nesting depth; `Matches d s f` says the `Ok` items of `s` are the
flattening of the forest `f` rooted at depth `d`. -/

inductive ETree : Type where
  | node (e : Entry) (children : List ETree)

inductive Matches : Nat → List (Except Unit Entry) → List ETree → Prop where
  | nil (d : Nat) : Matches d [] []
  | err (d : Nat) (u : Unit) {s : List (Except Unit Entry)} {f : List ETree} :
      Matches d s f → Matches d (.error u :: s) f
  | cons (d : Nat) {e : Entry} {s₁ s₂ : List (Except Unit Entry)}
      {cs f : List ETree} :
      e.depth = d →
      Matches (d + 1) s₁ cs →
      Matches d s₂ f →
      Matches d (.ok e :: (s₁ ++ s₂)) (.node e cs :: f)

/-- An entry that the size computation necessarily assigns 0: metadata absent,
failed, or flagging a directory.  Every entry the OS walker emits with children
underneath is of this kind (it is a directory). -/
def DirLike (e : Entry) : Prop :=
  ∀ m, e.metadata = some (Except.ok m) → m.is_dir = true

/-- The Walker-contract side condition that children only ever appear underneath
directory entries. -/
inductive DirsOnly : ETree → Prop where
  | mk {e : Entry} {cs : List ETree} :
      (cs ≠ [] → DirLike e) → (∀ t ∈ cs, DirsOnly t) → DirsOnly (.node e cs)

/-! ## Tree toolbox -/

/-- The compound tree mutation used for every created node: add a node and
immediately give it its unique incoming edge. -/
def Tree.add_child (t : Tree) (p : Nat) (d : EntryData) : Tree :=
  (t.add_node d).1.add_edge p (t.add_node d).2

/-- The sum of the direct children's sizes of `i`. -/
def Tree.childSizeSum (t : Tree) (i : Nat) : Nat :=
  ((t.children i).map t.sizeAt).sum

/-- The sum of the direct children's sizes of `p`, the child `x` excepted. -/
def Tree.childSizeSumExcept (t : Tree) (p x : Nat) : Nat :=
  (((t.children p).filter (fun j => j ≠ x)).map t.sizeAt).sum

/-! ## The structural invariant: the parent chain and the size stack

`ChainS t c par` says `c` (deepest first) is a chain of nodes each linked to the
next by its unique incoming edge, ending at the root, with `par` the chain head
(or the root, 0, for the empty chain).  This is what makes the pop / parent-up /
set-size operations of the unwinding loops total. -/

inductive ChainS (t : Tree) : List Nat → Nat → Prop where
  | nil : ChainS t [] 0
  | cons {rest : List Nat} {p n : Nat} :
      ChainS t rest p → t.parentOf n = some p → ChainS t (n :: rest) n

/-- The structural loop invariant of `from_walker`. -/
structure SInv (st : WalkState) (c : List Nat) : Prop where
  root0 : st.t.root_index = 0
  rootIn : 0 < st.t.tree.nodes.size
  rootPar : st.t.tree.parentOf 0 = none
  chain : ChainS st.t.tree c st.parent_node_idx
  chainLen : c.length = st.previous_depth
  stackLen : st.sizes_per_depth_level.length = st.previous_depth
  prevOk : (st.previous_node_idx = 0 ∧ st.previous_depth = 0) ∨
    st.t.tree.parentOf st.previous_node_idx = some st.parent_node_idx

/-! ## The full size-accounting invariant (for the directory-sum property)

`from_walker` builds every node before any of its children, so parent indices
are strictly smaller than child indices (`ParentMono`).  `Closed t ex` is the
target property — every node outside the exempt list whose child list is
nonempty already carries the sum of its direct children's sizes.  `ChainF`
couples the open parent chain with the saved per-depth sums: the entry saved
when descending into open child `n` of `p` is the sum of the sizes of the other
(already closed) children of `p`. -/

def ParentMono (t : Tree) : Prop :=
  ∀ j p, t.parentOf j = some p → p < j

def Closed (t : Tree) (ex : List Nat) : Prop :=
  ∀ x, x ∉ ex → t.children x ≠ [] → t.sizeAt x = t.childSizeSum x

inductive ChainF (t : Tree) : List Nat → List Nat → Nat → Prop where
  | nil : ChainF t [] [] 0
  | cons {c ss : List Nat} {p n a : Nat} :
      ChainF t c ss p →
      t.parentOf n = some p →
      a = t.childSizeSumExcept p n →
      ChainF t (n :: c) (a :: ss) n

/-- The full loop invariant of `from_walker`: the structural facts plus the
size bookkeeping — the running `current_size_at_depth` is the sum of the sizes
of the current parent's children so far, the saved stack entries are the
closed-sibling sums along the open chain, every closed node already satisfies
the directory-sum property, and the most recent node has no children yet. -/
structure FInv (st : WalkState) (c : List Nat) : Prop where
  root0 : st.t.root_index = 0
  rootIn : 0 < st.t.tree.nodes.size
  rootPar : st.t.tree.parentOf 0 = none
  mono : ParentMono st.t.tree
  chain : ChainF st.t.tree c st.sizes_per_depth_level st.parent_node_idx
  chainLen : c.length = st.previous_depth
  prevOk : (st.previous_node_idx = 0 ∧ st.previous_depth = 0) ∨
    st.t.tree.parentOf st.previous_node_idx = some st.parent_node_idx
  curEq : st.current_size_at_depth = st.t.tree.childSizeSum st.parent_node_idx
  done : Closed st.t.tree (0 :: c)
  prevKids : st.t.tree.children st.previous_node_idx = [] ∨
    st.previous_node_idx = 0

/-- A stream holds at least one successfully enumerated entry. -/
def HasOkE (s : List (Except Unit Entry)) : Prop :=
  ∃ e, Except.ok e ∈ s

/-- The total counted leaf size of the subtree under `x`: a leaf contributes
its own size, an inner node the sum over its children.  (The guard makes the
recursion well-founded on arbitrary trees; in trees built by `from_walker`
children always have larger indices than their parent, so it never cuts
anything off.) -/
def Tree.subtreeLeafSum (t : Tree) (x : Nat) : Nat :=
  if t.children x = [] then t.sizeAt x
  else ((t.children x).map (fun j =>
    if _h : x < j ∧ j < t.nodes.size then t.subtreeLeafSum j else 0)).sum
termination_by t.nodes.size - x
decreasing_by
  omega

/-- The C6 witness scenario: one root holding a directory (left unstatted by the
walker, hence `metadata := none`) with two files of sizes 5 and 7 underneath. -/
def c6dir : Entry :=
  { depth := 0, path := "d", file_name := "d", parent_path := "",
    metadata := none }

def c6file (name : String) (d sod : Nat) : Entry :=
  { depth := d, path := name, file_name := name, parent_path := "",
    metadata := some (.ok (simpleMeta false sod)) }

def c6Root : Root :=
  { path := "r", device_id := .ok 0,
    entries := [.ok c6dir, .ok (c6file "a" 1 5), .ok (c6file "b" 1 7)] }

/-- The traversal `from_walker` computes for `c6Root`: the directory node
(named after the root path, as it sits at depth 0) carries 5 + 7 = 12, and the
recomputed root total is 12. -/
def c6T : Traversal :=
  { tree := { nodes := #[
      { data := { name := "", size := 12, mtime := 0,
                  metadata_io_error := false }, parent := none },
      { data := { name := "r", size := 12, mtime := 0,
                  metadata_io_error := false }, parent := some 0 },
      { data := { name := "a", size := 5, mtime := 0,
                  metadata_io_error := false }, parent := some 1 },
      { data := { name := "b", size := 7, mtime := 0,
                  metadata_io_error := false }, parent := some 1 }] },
    root_index := 0, entries_traversed := 3, io_errors := 0,
    total_bytes := some 12 }

/-- The C9 counterexample input: the first root ends its (valid) stream at
depth 3; the second root's stream opens at depth 3, violating the contract
that a root's pre-order walk starts at depth 0. -/
def c9Root1 : Root :=
  { path := "one", device_id := .ok 0,
    entries := [.ok (c6file "A" 0 1), .ok (c6file "B" 1 2),
                .ok (c6file "C" 2 4), .ok (c6file "D" 3 8)] }

def c9Root2 : Root :=
  { path := "two", device_id := .ok 0, entries := [.ok (c6file "E" 3 16)] }

/-- The code's per-entry result agrees with the spec-side verdict: the computed
`file_size` is the counted size (default 0), one error is charged exactly when the
spec flags one, and the filter states agree. -/
theorem aggregate_file_size_eq_specCounted (opts : WalkOptions) (did : Nat)
    (seen : InodeFilter) (e : Entry) :
    aggregate_file_size opts did seen e =
      ((specCounted opts did seen e).1.getD 0,
       (if (specCounted opts did seen e).2.1 then 1 else 0),
       (specCounted opts did seen e).2.2) := by
  unfold aggregate_file_size specCounted entry_gate hard_link_gate
    InodeFilter.add_raw chosen_size crossdev.is_same_device_raw
  rcases e.metadata with _ | m
  · rfl
  rcases m with m | m
  · rfl
  by_cases hdir : m.is_dir
  · simp [hdir]
  by_cases hchl : opts.count_hard_links
  all_goals by_cases hnl : m.nlink ≤ 1
  all_goals by_cases hmem : (m.dev, m.ino) ∈ seen
  all_goals by_cases hcross : (opts.cross_filesystems || did == m.dev)
  all_goals by_cases happ : opts.apparent_size
  all_goals simp [hdir, hchl, hnl, hmem, hcross, happ]
  all_goals rcases m.size_on_disk with _ | s
  all_goals simp

/-- Characterization of the entry loop of `aggregate` by the spec-side view. -/
theorem foldl_aggregate_entry (opts : WalkOptions) (did : Nat)
    (es : List (Except Unit Entry)) :
    ∀ st : AggRootState,
      es.foldl (aggregate_entry opts did) st =
        { stats :=
            { entries_traversed :=
                st.stats.entries_traversed + (specRootAcc opts did st.inodes es).1.items,
              largest_file_in_bytes :=
                (specRootAcc opts did st.inodes es).1.sizes.foldl max
                  st.stats.largest_file_in_bytes,
              smallest_file_in_bytes :=
                (specRootAcc opts did st.inodes es).1.sizes.foldl min
                  st.stats.smallest_file_in_bytes },
          inodes := (specRootAcc opts did st.inodes es).2,
          num_bytes := st.num_bytes + (specRootAcc opts did st.inodes es).1.sizes.sum,
          num_errors := st.num_errors + (specRootAcc opts did st.inodes es).1.errs } := by
  induction es with
  | nil => intro st; simp [specRootAcc]
  | cons item rest ih =>
    intro st
    rcases item with _ | e
    · rw [List.foldl_cons, ih]
      simp only [aggregate_entry, specRootAcc, AggRootState.mk.injEq,
        Statistics.mk.injEq]
      and_intros <;> first | rfl | omega | (simp; try omega)
    · rw [List.foldl_cons, ih]
      simp only [aggregate_entry, aggregate_file_size_eq_specCounted, specRootAcc,
        AggRootState.mk.injEq, Statistics.mk.injEq]
      and_intros <;> first | rfl | omega | (simp; try omega)

/-- Characterization of the root loop of `aggregate` by the spec-side view: record
list, statistics, walk result and filter state are all read off `specWalk`. -/
theorem foldl_aggregate_root (opts : WalkOptions) (roots : List Root) :
    ∀ st : AggState,
      roots.foldl (aggregate_root opts) st =
        { res :=
            { num_roots := st.res.num_roots + roots.length,
              num_errors :=
                st.res.num_errors +
                  (((specWalk opts st.inodes roots).1.recs).map (fun r => r.2.2)).sum,
              total :=
                st.res.total +
                  (((specWalk opts st.inodes roots).1.recs).map (fun r => r.2.1)).sum },
          stats :=
            { entries_traversed :=
                st.stats.entries_traversed + (specWalk opts st.inodes roots).1.items,
              largest_file_in_bytes :=
                (specWalk opts st.inodes roots).1.sizes.foldl max
                  st.stats.largest_file_in_bytes,
              smallest_file_in_bytes :=
                (specWalk opts st.inodes roots).1.sizes.foldl min
                  st.stats.smallest_file_in_bytes },
          aggregates := st.aggregates ++ (specWalk opts st.inodes roots).1.recs,
          inodes := (specWalk opts st.inodes roots).2 } := by
  induction roots with
  | nil => intro st; simp [specWalk]
  | cons r rest ih =>
    intro st
    rw [List.foldl_cons]
    rcases hdev : r.device_id with _ | did
    · rw [ih]
      simp only [aggregate_root, hdev, specWalk, AggState.mk.injEq,
        WalkResult.mk.injEq, Statistics.mk.injEq]
      and_intros <;> first | rfl | omega | (simp; try omega)
    · simp only [aggregate_root, hdev]
      rw [foldl_aggregate_entry, ih]
      simp only [specWalk, hdev, AggState.mk.injEq, WalkResult.mk.injEq,
        Statistics.mk.injEq]
      and_intros <;>
        first | rfl | omega | (simp [List.foldl_append]; try omega)

theorem specRootAcc_sizes_sum (opts : WalkOptions) (did : Nat)
    (es : List (Except Unit Entry)) : ∀ seen : InodeFilter,
    (specRootAcc opts did seen es).1.sizes.sum =
      (specRootAcc opts did seen es).1.counted.sum := by
  induction es with
  | nil => intro seen; simp [specRootAcc]
  | cons item rest ih =>
    intro seen
    rcases item with _ | e
    · simpa [specRootAcc] using ih seen
    · simp only [specRootAcc, List.sum_cons, List.sum_append]
      rcases (specCounted opts did seen e).1 with _ | v <;>
        simp [ih]

theorem specWalk_recs_path (opts : WalkOptions) (roots : List Root) :
    ∀ seen : InodeFilter,
    ((specWalk opts seen roots).1.recs).map (fun r => r.1) =
      roots.map Root.path := by
  induction roots with
  | nil => intro seen; simp [specWalk]
  | cons r rest ih =>
    intro seen
    rcases hdev : r.device_id with _ | did <;> simp [specWalk, hdev, ih]

theorem specWalk_recs_bytes (opts : WalkOptions) (roots : List Root) :
    ∀ seen : InodeFilter,
    ((specWalk opts seen roots).1.recs).map (fun r => r.2.1) =
      specCountedTotals opts seen roots := by
  induction roots with
  | nil => intro seen; simp [specWalk, specCountedTotals]
  | cons r rest ih =>
    intro seen
    rcases hdev : r.device_id with _ | did <;>
      simp [specWalk, specCountedTotals, hdev, ih, specRootAcc_sizes_sum]

/-- C1: for every list of roots and every entry stream, the unsorted record list
of `aggregate` pairs the roots in input order with byte totals equal to the sum of
the counted sizes of exactly those entries that pass the spec's gating policy
(successfully-retrieved metadata, not a directory, hard-link gate, cross-device
gate, apparent-size/size-on-disk choice), and the grand total of the returned
`WalkResult` equals the sum of the per-root totals. -/
theorem claim_C1 (opts : WalkOptions) (roots : List Root) :
    ((aggregate opts false roots).2.2).map (fun r => r.1) = roots.map Root.path ∧
    ((aggregate opts false roots).2.2).map (fun r => r.2.1) =
      specCountedTotals opts ([] : InodeFilter) roots ∧
    (aggregate opts false roots).1.total =
      (((aggregate opts false roots).2.2).map (fun r => r.2.1)).sum := by
  simp only [aggregate, foldl_aggregate_root]
  simpa using ⟨specWalk_recs_path opts roots _, specWalk_recs_bytes opts roots _⟩

/-- C2 counterexample: the claim says `smallest_file_in_bytes` is the minimum
counted size across non-directory entries only.  On a root holding one file of
size 5 and one directory, the only non-directory computed size is 5, yet the code
updates the minimum with the 0 computed for the directory entry and reports
`smallest_file_in_bytes = 0`.  (A second divergence, covered by the amended claim:
a stream yielding only `Err` items leaves `entries_traversed = 1 ≠ 0`, so the
smallest size is reported as the u128 sentinel, which the claim says never
happens.) -/
theorem claim_C2_counterexample :
    (aggregate {} false [c2Root]).2.1.smallest_file_in_bytes = 0 ∧
    specNonDirSizes {} 0 ([] : InodeFilter) c2Root.entries = [5] ∧
    (aggregate {} false
        [{ path := "e", device_id := .ok 0, entries := [.error ()] }]
      ).2.1.smallest_file_in_bytes = U128_MAX := by
  refine ⟨rfl, rfl, rfl⟩

/-- C2 (amended): `entries_traversed` counts every item pulled from the streams of
roots whose device id resolved (including `Err` items); `largest_file_in_bytes`
and `smallest_file_in_bytes` are the maximum and minimum of the computed size of
every successfully enumerated (`Ok`) entry — directories, gated-out entries and
failed lookups contributing 0 —, the minimum starting from the u128 sentinel and
being forced to 0 exactly when zero items were pulled. -/
theorem claim_C2_amended (opts : WalkOptions) (sort : Bool) (roots : List Root) :
    (aggregate opts sort roots).2.1.entries_traversed =
      (specWalk opts ([] : InodeFilter) roots).1.items ∧
    (aggregate opts sort roots).2.1.largest_file_in_bytes =
      (specWalk opts ([] : InodeFilter) roots).1.sizes.foldl max 0 ∧
    (aggregate opts sort roots).2.1.smallest_file_in_bytes =
      (if (specWalk opts ([] : InodeFilter) roots).1.items = 0 then 0
       else (specWalk opts ([] : InodeFilter) roots).1.sizes.foldl min U128_MAX) := by
  simp only [aggregate, foldl_aggregate_root]
  by_cases h : (specWalk opts ([] : InodeFilter) roots).1.items = 0 <;> simp [h]

/-- C3: a root whose device-id resolution fails contributes exactly one error to
the overall result, the record `(root_path, 0 bytes, 1 error)`, leaves the
statistics (in particular `entries_traversed`) exactly as if the root had not been
given at all, adds no bytes, and processing continues with the remaining roots.
-/
theorem claim_C3 (opts : WalkOptions) (r : Root) (rest : List Root)
    (h : r.device_id = Except.error ()) :
    (aggregate opts false (r :: rest)).1.num_roots
        = (aggregate opts false rest).1.num_roots + 1 ∧
    (aggregate opts false (r :: rest)).1.num_errors
        = (aggregate opts false rest).1.num_errors + 1 ∧
    (aggregate opts false (r :: rest)).1.total
        = (aggregate opts false rest).1.total ∧
    (aggregate opts false (r :: rest)).2.1 = (aggregate opts false rest).2.1 ∧
    (aggregate opts false (r :: rest)).2.2
        = (r.path, 0, 1) :: (aggregate opts false rest).2.2 := by
  simp only [aggregate, foldl_aggregate_root]
  simp only [specWalk, h]
  and_intros <;> first | (simp; omega) | simp

theorem claim_C3_witness :
    (aggregate {} false
        [{ path := "bad", device_id := .error (), entries := [] }]).1.num_errors
      = (aggregate {} false ([] : List Root)).1.num_errors + 1 ∧
    (aggregate {} false
        [{ path := "bad", device_id := .error (), entries := [] }]).2.2
      = [("bad", 0, 1)] := by
  have h := claim_C3 {} { path := "bad", device_id := .error (), entries := [] }
    [] rfl
  exact ⟨h.2.1, h.2.2.2.2⟩

/-- C4: the inode filter's add operation (for entries with `nlink > 1`) returns
true on the first observation of a (dev, ino) pair, false on subsequent
observations, and never forgets a pair; consequently two entries of one
`aggregate` invocation sharing (dev, ino) with `nlink > 1` have their size added
once when `count_hard_links` is false and twice when it is true. -/
theorem claim_C4 :
    (∀ (seen : InodeFilter) (dev ino nlink : Nat), 1 < nlink →
      ((dev, ino) ∉ seen →
        InodeFilter.add_raw seen dev ino nlink = (true, (dev, ino) :: seen)) ∧
      ((dev, ino) ∈ seen →
        InodeFilter.add_raw seen dev ino nlink = (false, seen))) ∧
    (∀ (seen : InodeFilter) (dev ino d2 i2 n2 : Nat), (dev, ino) ∈ seen →
      (dev, ino) ∈ (InodeFilter.add_raw seen d2 i2 n2).2) ∧
    (∀ (opts : WalkOptions) (p fn : String) (dev ino nlink s : Nat), 1 < nlink →
      (aggregate opts false
          [{ path := p, device_id := .ok dev,
             entries := [.ok (hlEntry fn dev ino nlink s),
                         .ok (hlEntry fn dev ino nlink s)] }]).1.total
        = if opts.count_hard_links then s + s else s) := by
  refine ⟨?_, ?_, ?_⟩
  · intro seen dev ino nlink h
    constructor <;> intro hm <;> simp [InodeFilter.add_raw, hm] <;> omega
  · intro seen dev ino d2 i2 n2 hm
    unfold InodeFilter.add_raw
    split
    · exact hm
    · split
      · exact hm
      · exact List.mem_cons_of_mem _ hm
  · intro opts p fn dev ino nlink s h
    have hn : ¬ nlink ≤ 1 := by omega
    rcases hchl : opts.count_hard_links <;> rcases happ : opts.apparent_size <;>
      simp [aggregate, aggregate_root, aggregate_entry, aggregate_file_size,
        entry_gate, hard_link_gate, InodeFilter.add_raw, chosen_size,
        crossdev.is_same_device_raw, hlEntry, hchl, happ, hn]

theorem claim_C4_witness :
    InodeFilter.add_raw ([] : InodeFilter) 3 7 2 = (true, [(3, 7)]) ∧
    InodeFilter.add_raw ([(3, 7)] : InodeFilter) 3 7 2 = (false, [(3, 7)]) ∧
    (aggregate {} false
        [{ path := "t", device_id := .ok 3,
           entries := [.ok (hlEntry "f" 3 7 2 5), .ok (hlEntry "f" 3 7 2 5)] }]
      ).1.total = 5 ∧
    (aggregate { count_hard_links := true } false
        [{ path := "t", device_id := .ok 3,
           entries := [.ok (hlEntry "f" 3 7 2 5), .ok (hlEntry "f" 3 7 2 5)] }]
      ).1.total = 10 := by
  refine ⟨((claim_C4.1 [] 3 7 2 (by omega)).1 (by simp)),
    ((claim_C4.1 [(3, 7)] 3 7 2 (by omega)).2 (by simp)),
    (claim_C4.2.2 {} "t" "f" 3 7 2 5 (by omega)).trans (by simp),
    (claim_C4.2.2 { count_hard_links := true } "t" "f" 3 7 2 5 (by omega)).trans
      (by simp)⟩

theorem recordLE_trans (a b c : String × Nat × Nat) :
    recordLE a b → recordLE b c → recordLE a c := by
  simp only [recordLE, Nat.ble_eq]
  exact Nat.le_trans

theorem recordLE_total (a b : String × Nat × Nat) :
    recordLE a b || recordLE b a := by
  simp only [recordLE, Nat.ble_eq]
  rcases Nat.le_total a.2.1 b.2.1 with h | h <;> simp [h]

/-- C5: with `sort_by_size_in_bytes` false the records appear in exactly the input
root order; with it true they are the stable ascending-by-bytes sort of the
per-root records: a permutation of the unsorted records that is sorted by byte
count, in which any two records appearing in ascending (in particular equal) byte
order in the unsorted list keep their relative order. -/
theorem claim_C5 (opts : WalkOptions) (roots : List Root) :
    ((aggregate opts false roots).2.2).map (fun r => r.1) = roots.map Root.path ∧
    (aggregate opts true roots).2.2 =
      ((aggregate opts false roots).2.2).mergeSort recordLE ∧
    ((aggregate opts true roots).2.2).Perm ((aggregate opts false roots).2.2) ∧
    ((aggregate opts true roots).2.2).Pairwise (fun a b => a.2.1 ≤ b.2.1) ∧
    (∀ a b, [a, b].Sublist ((aggregate opts false roots).2.2) → a.2.1 ≤ b.2.1 →
      [a, b].Sublist ((aggregate opts true roots).2.2)) := by
  have hsort : (aggregate opts true roots).2.2 =
      ((aggregate opts false roots).2.2).mergeSort recordLE := rfl
  refine ⟨?_, hsort, ?_, ?_, ?_⟩
  · simp only [aggregate, foldl_aggregate_root]
    simpa using specWalk_recs_path opts roots _
  · rw [hsort]; exact List.mergeSort_perm _ _
  · rw [hsort]
    refine List.Pairwise.imp ?_
      (List.sorted_mergeSort recordLE_trans recordLE_total _)
    intro a b h
    simpa [recordLE, Nat.ble_eq] using h
  · intro a b hsub hle
    rw [hsort]
    refine List.sublist_mergeSort recordLE_trans recordLE_total ?_ hsub
    simp [recordLE, Nat.ble_eq, hle]

theorem claim_C5_witness :
    ((aggregate {} false c5Roots).2.2).map (fun r => r.1) = ["a", "b"] ∧
    [("a", 10, 0), ("b", 20, 0)].Sublist ((aggregate {} true c5Roots).2.2) := by
  refine ⟨(claim_C5 {} c5Roots).1, ?_⟩
  refine (claim_C5 {} c5Roots).2.2.2.2 ("a", 10, 0) ("b", 20, 0) ?_ (by decide)
  have hu : (aggregate {} false c5Roots).2.2 = [("a", 10, 0), ("b", 20, 0)] := rfl
  rw [hu]

/-- C10: in `from_walker`, a device-id resolution failure for a root adds no node
(the tree is exactly what it was), leaves `entries_traversed` and every piece of
the depth-stack machinery untouched, increments `io_errors` by exactly one, and
the root loop continues with the next root (the step returns the continuing state
rather than an exit). -/
theorem claim_C10 (opts : WalkOptions) (update : Traversal → Except Unit Bool)
    (fires : Nat → Bool) (st : WalkState) (root : Root)
    (h : root.device_id = Except.error ()) :
    ∃ st', process_root opts update fires st root = Except.ok st' ∧
      st'.t.tree = st.t.tree ∧
      st'.t.entries_traversed = st.t.entries_traversed ∧
      st'.t.io_errors = st.t.io_errors + 1 ∧
      st'.t.total_bytes = st.t.total_bytes ∧
      st'.previous_node_idx = st.previous_node_idx ∧
      st'.parent_node_idx = st.parent_node_idx ∧
      st'.sizes_per_depth_level = st.sizes_per_depth_level ∧
      st'.current_size_at_depth = st.current_size_at_depth ∧
      st'.previous_depth = st.previous_depth ∧
      st'.inodes = st.inodes := by
  refine ⟨{ st with t.io_errors := st.t.io_errors + 1 }, ?_, by simp⟩
  simp [process_root, h]

theorem claim_C10_witness :
    ∃ st', process_root {} (fun _ => Except.ok false) (fun _ => false)
        init_walk_state
        { path := "bad", device_id := .error (), entries := [] }
      = Except.ok st' ∧
      st'.t.tree = init_walk_state.t.tree ∧
      st'.t.entries_traversed = 0 ∧
      st'.t.io_errors = 1 := by
  obtain ⟨st', h1, h2, h3, h4, -⟩ := claim_C10 {} (fun _ => Except.ok false)
    (fun _ => false) init_walk_state
    { path := "bad", device_id := .error (), entries := [] } rfl
  exact ⟨st', h1, h2, h3, h4⟩

/-- C8 counterexample: the claim allows a placeholder node only when the error
occurs at depth 0 "for a root that has produced no entries yet".  Here the root
has already produced an `Ok` entry (the size-5 file, node 1) when the error
arrives, so per the claim the error must produce no node and the tree must have 2
nodes; but since the previous depth is 0 the code still creates the zero-size
placeholder named after the root path as node 2, a child of the root. -/
theorem claim_C8_counterexample :
    (Traversal.from_walker {} [c8Root] (fun _ => Except.ok false)
        (fun _ => false)).map
        (fun t => (t.io_errors, t.tree.nodes.map
          (fun n => (n.data.name, n.data.size, n.parent))))
      = Except.ok (1, #[("", 5, none), ("test", 5, some 0),
          ("test", 0, some 0)]) := by
  rfl

/-- C8 (amended): an `Err` item increments the error counter and produces no tree
node, except when `previous_depth = 0` — that is, when no `Ok` entry has been
processed yet in this invocation, or the most recent `Ok` entry (possibly of the
same root) had depth 0 — in which case a placeholder named after the current root
path with size zero is added as a child of the current parent (and the error
counter is still incremented).  (Stated for a step at which the throttle does not
fire; a firing throttle additionally consults the cancellation callback but does
not change the recorded state.) -/
theorem claim_C8_amended (opts : WalkOptions) (path : String) (device_id : Nat)
    (update : Traversal → Except Unit Bool) (fires : Nat → Bool) (st : WalkState)
    (hf : fires (st.t.entries_traversed + 1) = false) :
    (st.previous_depth = 0 →
      process_entry opts path device_id update fires st (.error ()) =
        Except.ok { st with
          t.tree := (Tree.add_node st.t.tree
              { EntryData.default with name := path }).1.add_edge
              st.parent_node_idx
              (Tree.add_node st.t.tree
                { EntryData.default with name := path }).2,
          t.entries_traversed := st.t.entries_traversed + 1,
          t.io_errors := st.t.io_errors + 1 }) ∧
    (st.previous_depth ≠ 0 →
      process_entry opts path device_id update fires st (.error ()) =
        Except.ok { st with
          t.entries_traversed := st.t.entries_traversed + 1,
          t.io_errors := st.t.io_errors + 1 }) := by
  constructor <;> intro h <;>
    simp [process_entry, process_err_entry, check_update, h, hf, bind,
      Except.bind]

theorem claim_C8_amended_witness :
    (fun _ => false : Nat → Bool) (0 + 1) = false ∧
    process_entry {} "r" 0 (fun _ => Except.ok false) (fun _ => false)
        { t := { tree := (Tree.add_node { nodes := #[] } EntryData.default).1,
                 root_index := 0, entries_traversed := 0, io_errors := 0,
                 total_bytes := none },
          previous_node_idx := 0, parent_node_idx := 0,
          sizes_per_depth_level := [], current_size_at_depth := 0,
          previous_depth := 0, inodes := ([] : List (Nat × Nat)) }
        (.error ())
      = Except.ok
        { t := { tree := { nodes := #[
                   { data := EntryData.default, parent := none },
                   { data := { EntryData.default with name := "r" },
                     parent := some 0 }] },
                 root_index := 0, entries_traversed := 1, io_errors := 1,
                 total_bytes := none },
          previous_node_idx := 0, parent_node_idx := 0,
          sizes_per_depth_level := [], current_size_at_depth := 0,
          previous_depth := 0, inodes := ([] : List (Nat × Nat)) } := by
  refine ⟨rfl, ?_⟩
  rw [(claim_C8_amended {} "r" 0 (fun _ => Except.ok false) (fun _ => false)
    _ rfl).1 rfl]
  rfl

theorem Tree.parentOf_some_lt {t : Tree} {j p : Nat}
    (h : t.parentOf j = some p) : j < t.nodes.size := by
  by_contra hn
  have : t.nodes[j]? = none := by
    simp [Array.getElem?_eq_none_iff]; omega
  simp [Tree.parentOf, this] at h

theorem Tree.mem_children {t : Tree} {j i : Nat} :
    j ∈ t.children i ↔ t.parentOf j = some i := by
  constructor
  · intro h
    simp only [Tree.children, List.mem_filter, List.mem_range] at h
    simpa using h.2
  · intro h
    simp only [Tree.children, List.mem_filter, List.mem_range]
    exact ⟨Tree.parentOf_some_lt h, by simpa using h⟩

theorem Tree.children_nodup (t : Tree) (i : Nat) : (t.children i).Nodup :=
  (List.nodup_range _).filter _

/-- `add_child` facts: size, parent pointers, sizes, children. -/
theorem Tree.add_child_eq (t : Tree) (p : Nat) (d : EntryData) :
    t.add_child p d = Tree.mk ((t.nodes.push (TreeNode.mk d none)).modify
      t.nodes.size (fun n => { n with parent := some p })) := rfl

theorem Tree.add_child_getElem_old (t : Tree) (p : Nat) (d : EntryData)
    {j : Nat} (hj : j < t.nodes.size) :
    (t.add_child p d).nodes[j]? = t.nodes[j]? := by
  rw [Tree.add_child_eq]
  show ((t.nodes.push (TreeNode.mk d none)).modify
      t.nodes.size (fun n => { n with parent := some p }))[j]? = t.nodes[j]?
  rw [Array.getElem?_modify]
  have hne : ¬ (t.nodes.size = j) := by omega
  rw [if_neg hne, Array.getElem?_push_lt _ _ _ hj,
    Array.getElem?_eq_getElem hj]

theorem Tree.add_child_getElem_new (t : Tree) (p : Nat) (d : EntryData) :
    (t.add_child p d).nodes[t.nodes.size]? =
      some (TreeNode.mk d (some p)) := by
  rw [Tree.add_child_eq]
  show ((t.nodes.push (TreeNode.mk d none)).modify
      t.nodes.size (fun n => { n with parent := some p }))[t.nodes.size]? = _
  rw [Array.getElem?_modify, if_pos rfl, Array.getElem?_push_eq]
  rfl

theorem Tree.add_child_size (t : Tree) (p : Nat) (d : EntryData) :
    (t.add_child p d).nodes.size = t.nodes.size + 1 := by
  rw [Tree.add_child_eq]
  simp

theorem Tree.add_child_parentOf_old (t : Tree) (p : Nat) (d : EntryData)
    {j : Nat} (hj : j < t.nodes.size) :
    (t.add_child p d).parentOf j = t.parentOf j := by
  simp only [Tree.parentOf, Tree.add_child_getElem_old t p d hj]

theorem Tree.add_child_parentOf_new (t : Tree) (p : Nat) (d : EntryData) :
    (t.add_child p d).parentOf t.nodes.size = some p := by
  simp only [Tree.parentOf, Tree.add_child_getElem_new t p d]
  rfl

theorem Tree.add_child_sizeAt_old (t : Tree) (p : Nat) (d : EntryData)
    {j : Nat} (hj : j < t.nodes.size) :
    (t.add_child p d).sizeAt j = t.sizeAt j := by
  simp only [Tree.sizeAt, Tree.add_child_getElem_old t p d hj]

theorem Tree.add_child_sizeAt_new (t : Tree) (p : Nat) (d : EntryData) :
    (t.add_child p d).sizeAt t.nodes.size = d.size := by
  simp only [Tree.sizeAt, Tree.add_child_getElem_new t p d]
  rfl

theorem Tree.add_child_children (t : Tree) (p : Nat) (d : EntryData) (x : Nat) :
    (t.add_child p d).children x =
      t.children x ++ (if p = x then [t.nodes.size] else []) := by
  have hsz := Tree.add_child_size t p d
  simp only [Tree.children, hsz, List.range_succ, List.filter_append]
  congr 1
  · apply List.filter_congr
    intro j hj
    rw [List.mem_range] at hj
    rw [Tree.add_child_parentOf_old t p d hj]
  · rw [List.filter_cons, List.filter_nil]
    rw [Tree.add_child_parentOf_new t p d]
    by_cases hpx : p = x <;> simp [hpx]

/-- `set_size_or_panic` facts. -/
theorem set_size_some {t : Tree} {i : Nat} (s : Nat) (hi : i < t.nodes.size) :
    ∃ t', set_size_or_panic t i s = some t' := by
  simp [set_size_or_panic, hi]

theorem set_size_eq {t t' : Tree} {i s : Nat}
    (h : set_size_or_panic t i s = some t') :
    i < t.nodes.size ∧
      t' = Tree.mk (t.nodes.modify i (fun n => { n with data.size := s })) := by
  simp only [set_size_or_panic] at h
  split at h
  · exact ⟨by assumption, by cases h; rfl⟩
  · cases h

theorem set_size_size {t t' : Tree} {i s : Nat}
    (h : set_size_or_panic t i s = some t') :
    t'.nodes.size = t.nodes.size := by
  obtain ⟨hi, rfl⟩ := set_size_eq h
  simp

theorem set_size_parentOf {t t' : Tree} {i s : Nat}
    (h : set_size_or_panic t i s = some t') (j : Nat) :
    t'.parentOf j = t.parentOf j := by
  obtain ⟨hi, rfl⟩ := set_size_eq h
  simp only [Tree.parentOf]
  rw [Array.getElem?_modify]
  split
  · next heq =>
    subst heq
    rcases hj : t.nodes[i]? with _ | n <;> simp [hj]
  · rfl

theorem set_size_children {t t' : Tree} {i s : Nat}
    (h : set_size_or_panic t i s = some t') (x : Nat) :
    t'.children x = t.children x := by
  simp only [Tree.children, set_size_size h]
  apply List.filter_congr
  intro j _
  rw [set_size_parentOf h]

theorem set_size_sizeAt_ne {t t' : Tree} {i s : Nat}
    (h : set_size_or_panic t i s = some t') {j : Nat} (hj : j ≠ i) :
    t'.sizeAt j = t.sizeAt j := by
  obtain ⟨hi, rfl⟩ := set_size_eq h
  simp only [Tree.sizeAt]
  rw [Array.getElem?_modify]
  have : ¬ (i = j) := fun hh => hj hh.symm
  simp [this]

theorem set_size_sizeAt_eq {t t' : Tree} {i s : Nat}
    (h : set_size_or_panic t i s = some t') :
    t'.sizeAt i = s := by
  obtain ⟨hi, rfl⟩ := set_size_eq h
  simp only [Tree.sizeAt]
  rw [Array.getElem?_modify]
  have hg : t.nodes[i]? = some t.nodes[i] := Array.getElem?_eq_getElem hi
  simp [hg]

theorem sum_filter_ne {l : List Nat} (f : Nat → Nat) {x : Nat}
    (hn : l.Nodup) (hx : x ∈ l) :
    (l.map f).sum = ((l.filter (fun j => j ≠ x)).map f).sum + f x := by
  induction l with
  | nil => cases hx
  | cons a l ih =>
    rw [List.filter_cons]
    by_cases hax : a = x
    · subst hax
      rw [if_neg (by simp)]
      have hfl : l.filter (fun j => j ≠ a) = l := by
        apply List.filter_eq_self.mpr
        intro b hb
        have hna := (List.nodup_cons.mp hn).1
        simp only [ne_eq, decide_eq_true_eq]
        rintro rfl
        exact hna hb
      rw [hfl]
      simp only [List.map_cons, List.sum_cons]
      omega
    · have hx2 : x ∈ l := by
        rcases List.mem_cons.mp hx with h | h
        · exact absurd h.symm hax
        · exact h
      rw [if_pos (by simp [hax])]
      simp only [List.map_cons, List.sum_cons,
        ih (List.nodup_cons.mp hn).2 hx2]
      omega

theorem Tree.childSizeSum_split {t : Tree} {x p : Nat}
    (hx : t.parentOf x = some p) :
    t.childSizeSum p = t.childSizeSumExcept p x + t.sizeAt x :=
  sum_filter_ne t.sizeAt (t.children_nodup p) (Tree.mem_children.mpr hx)

theorem ChainS.congr {t : Tree} {c : List Nat} {par : Nat}
    (h : ChainS t c par) (t' : Tree)
    (hpar : ∀ j p, t.parentOf j = some p → t'.parentOf j = some p) :
    ChainS t' c par := by
  induction h with
  | nil => exact ChainS.nil
  | cons hrest hlink ih => exact ChainS.cons ih (hpar _ _ hlink)

theorem ChainS.par_lt {t : Tree} {c : List Nat} {par : Nat}
    (h : ChainS t c par) (hroot : 0 < t.nodes.size) : par < t.nodes.size := by
  cases h with
  | nil => exact hroot
  | cons hrest hlink => exact Tree.parentOf_some_lt hlink

/-- Under the chain invariant, the mid-stream unwinding loop cannot panic: it
closes `k` chain nodes, keeps the tree's shape (sizes apart), and leaves the
dropped chain and stack. -/
theorem mid_unwind_ok_struct {t : Tree} {c : List Nat} {par : Nat}
    (hc : ChainS t c par) (hroot : 0 < t.nodes.size) :
    ∀ (k : Nat) (stack : List Nat) (cur : Nat),
      k ≤ c.length → k ≤ stack.length →
      ∃ t' par' stack' cur',
        mid_unwind k t par stack cur = .ok (t', par', stack', cur') ∧
        t'.nodes.size = t.nodes.size ∧
        (∀ j, t'.parentOf j = t.parentOf j) ∧
        ChainS t' (c.drop k) par' ∧
        stack' = stack.drop k := by
  intro k
  induction k generalizing t c par with
  | zero =>
    intro stack cur hk hs
    exact ⟨t, par, stack, cur, rfl, rfl, fun j => rfl, hc, rfl⟩
  | succ k ih =>
    intro stack cur hk hs
    rcases hc with _ | @⟨rest, p, n, hrest, hlink⟩
    · simp at hk
    rcases stack with _ | ⟨a, stack₂⟩
    · simp at hs
    obtain ⟨t₁, h₁⟩ := set_size_some (t := t) cur (Tree.parentOf_some_lt hlink)
    have hsz₁ := set_size_size h₁
    have hpar₁ := set_size_parentOf h₁
    have hlink₁ : t₁.parentOf par = some p := by rw [hpar₁]; exact hlink
    have hc₁ : ChainS t₁ rest p :=
      hrest.congr t₁ (fun j q hq => by rw [hpar₁]; exact hq)
    have hroot₁ : 0 < t₁.nodes.size := by omega
    obtain ⟨t', par', stack', cur', hrun, hsz, hpar, hch, hst⟩ :=
      ih hc₁ hroot₁ stack₂ (cur + a) (by simpa using hk) (by simpa using hs)
    refine ⟨t', par', stack', cur', ?_, by omega, ?_, hch, by simpa using hst⟩
    · show mid_unwind (k + 1) t par (a :: stack₂) cur = _
      simp only [mid_unwind, h₁, pop_or_panic, parent_or_panic, hlink₁]
      exact hrun
    · intro j; rw [hpar j, hpar₁]

/-- Under the chain invariant, the end-of-walk unwinding loop cannot panic. -/
theorem final_unwind_ok_struct {c : List Nat} :
    ∀ {t : Tree} {par : Nat}, ChainS t c par →
    ∀ (stack : List Nat) (cur : Nat), c.length ≤ stack.length →
      ∃ t' par', final_unwind c.length t par stack cur = .ok (t', par') ∧
        t'.nodes.size = t.nodes.size := by
  induction c with
  | nil =>
    intro t par hc stack cur hs
    cases hc
    exact ⟨t, 0, rfl, rfl⟩
  | cons n rest ih =>
    intro t par hc stack cur hs
    cases hc with
    | cons hrest hlink =>
      rename_i q
      rcases stack with _ | ⟨a, stack₂⟩
      · simp at hs
      obtain ⟨t₁, h₁⟩ := set_size_some (t := t) (cur + a)
        (Tree.parentOf_some_lt hlink)
      have hsz₁ := set_size_size h₁
      have hpar₁ := set_size_parentOf h₁
      have hlink₁ : t₁.parentOf n = some q := by rw [hpar₁]; exact hlink
      have hc₁ : ChainS t₁ rest q :=
        hrest.congr t₁ (fun j w hq => by rw [hpar₁]; exact hq)
      obtain ⟨t', par', hrun, hsz⟩ := ih hc₁ stack₂ (cur + a) (by simpa using hs)
      refine ⟨t', par', ?_, by omega⟩
      show final_unwind (rest.length + 1) t n (a :: stack₂) cur = _
      simp only [final_unwind, pop_or_panic, h₁, parent_or_panic, hlink₁]
      exact hrun

/-! ### Shape of one `Ok`-entry step, by depth case -/

theorem process_ok_entry_gt (opts : WalkOptions) (path : String) (did : Nat)
    (st : WalkState) (e : Entry) (h : st.previous_depth < e.depth) :
    process_ok_entry opts path did st e = Except.ok
      { t := { tree := st.t.tree.add_child st.previous_node_idx
                 { name := if e.depth < 1 then path else e.file_name,
                   size := (entry_accounting opts did st.inodes e).1,
                   mtime := (entry_accounting opts did st.inodes e).2.2.2.1,
                   metadata_io_error :=
                     (entry_accounting opts did st.inodes e).2.2.1 },
               root_index := st.t.root_index,
               entries_traversed := st.t.entries_traversed,
               io_errors := st.t.io_errors +
                 (entry_accounting opts did st.inodes e).2.1,
               total_bytes := st.t.total_bytes },
        previous_node_idx := st.t.tree.nodes.size,
        parent_node_idx := st.previous_node_idx,
        sizes_per_depth_level :=
          st.current_size_at_depth :: st.sizes_per_depth_level,
        current_size_at_depth := (entry_accounting opts did st.inodes e).1,
        previous_depth := e.depth,
        inodes := (entry_accounting opts did st.inodes e).2.2.2.2 } := by
  simp [process_ok_entry, h, bind, Except.bind, Tree.add_child, Tree.add_node]

theorem process_ok_entry_eq_depth (opts : WalkOptions) (path : String)
    (did : Nat) (st : WalkState) (e : Entry) (h : e.depth = st.previous_depth) :
    process_ok_entry opts path did st e = Except.ok
      { t := { tree := st.t.tree.add_child st.parent_node_idx
                 { name := if e.depth < 1 then path else e.file_name,
                   size := (entry_accounting opts did st.inodes e).1,
                   mtime := (entry_accounting opts did st.inodes e).2.2.2.1,
                   metadata_io_error :=
                     (entry_accounting opts did st.inodes e).2.2.1 },
               root_index := st.t.root_index,
               entries_traversed := st.t.entries_traversed,
               io_errors := st.t.io_errors +
                 (entry_accounting opts did st.inodes e).2.1,
               total_bytes := st.t.total_bytes },
        previous_node_idx := st.t.tree.nodes.size,
        parent_node_idx := st.parent_node_idx,
        sizes_per_depth_level := st.sizes_per_depth_level,
        current_size_at_depth :=
          st.current_size_at_depth + (entry_accounting opts did st.inodes e).1,
        previous_depth := e.depth,
        inodes := (entry_accounting opts did st.inodes e).2.2.2.2 } := by
  have h1 : ¬ (st.previous_depth < e.depth) := by omega
  have h2 : ¬ (e.depth < st.previous_depth) := by omega
  simp [process_ok_entry, h1, h2, bind, Except.bind, Tree.add_child,
    Tree.add_node]

theorem process_ok_entry_lt (opts : WalkOptions) (path : String) (did : Nat)
    (st : WalkState) (e : Entry) (h : e.depth < st.previous_depth) :
    process_ok_entry opts path did st e =
      (match mid_unwind (st.previous_depth - e.depth) st.t.tree
          st.parent_node_idx st.sizes_per_depth_level
          st.current_size_at_depth with
       | .error ex => .error ex
       | .ok r =>
         match set_size_or_panic r.1 r.2.1
             (r.2.2.2 + (entry_accounting opts did st.inodes e).1) with
         | none => .error RunExit.abort
         | some tree => Except.ok
             { t := { tree := tree.add_child r.2.1
                        { name := if e.depth < 1 then path else e.file_name,
                          size := (entry_accounting opts did st.inodes e).1,
                          mtime :=
                            (entry_accounting opts did st.inodes e).2.2.2.1,
                          metadata_io_error :=
                            (entry_accounting opts did st.inodes e).2.2.1 },
                      root_index := st.t.root_index,
                      entries_traversed := st.t.entries_traversed,
                      io_errors := st.t.io_errors +
                        (entry_accounting opts did st.inodes e).2.1,
                      total_bytes := st.t.total_bytes },
               previous_node_idx := tree.nodes.size,
               parent_node_idx := r.2.1,
               sizes_per_depth_level := r.2.2.1,
               current_size_at_depth :=
                 r.2.2.2 + (entry_accounting opts did st.inodes e).1,
               previous_depth := e.depth,
               inodes := (entry_accounting opts did st.inodes e).2.2.2.2 }) := by
  have h1 : ¬ (st.previous_depth < e.depth) := by omega
  simp only [process_ok_entry, h1, if_false, h, if_true, bind, Except.bind,
    gt_iff_lt]
  rcases hr : mid_unwind (st.previous_depth - e.depth) st.t.tree
      st.parent_node_idx st.sizes_per_depth_level st.current_size_at_depth with
    ex | r
  · rfl
  · rcases hset : set_size_or_panic r.1 r.2.1
        (r.2.2.2 + (entry_accounting opts did st.inodes e).1) with _ | tree
    · rfl
    · simp [Tree.add_child, Tree.add_node]

theorem Tree.add_child_preserves {t : Tree} {j q : Nat} (p : Nat)
    (d : EntryData) (h : t.parentOf j = some q) :
    (t.add_child p d).parentOf j = some q := by
  rw [Tree.add_child_parentOf_old t p d (Tree.parentOf_some_lt h)]
  exact h

theorem sinv_bump {st : WalkState} {c : List Nat} (hs : SInv st c) :
    SInv { st with t.entries_traversed := st.t.entries_traversed + 1 } c :=
  ⟨hs.root0, hs.rootIn, hs.rootPar, hs.chain, hs.chainLen, hs.stackLen,
   hs.prevOk⟩

theorem ChainS.nil_par {t : Tree} {par : Nat} (h : ChainS t [] par) :
    par = 0 := by
  cases h; rfl

theorem sinv_step_err {path : String} {st : WalkState} {c : List Nat}
    (hs : SInv st c) :
    SInv (process_err_entry path st) c ∧
    (process_err_entry path st).previous_depth = st.previous_depth ∧
    (process_err_entry path st).previous_node_idx = st.previous_node_idx ∧
    (process_err_entry path st).parent_node_idx = st.parent_node_idx ∧
    (∀ j p, st.t.tree.parentOf j = some p →
      (process_err_entry path st).t.tree.parentOf j = some p) := by
  by_cases h0 : st.previous_depth = 0
  · have hc : c = [] := List.length_eq_zero.mp (hs.chainLen.trans h0)
    subst hc
    have hpar0 : st.parent_node_idx = 0 := hs.chain.nil_par
    have heq : process_err_entry path st =
        { st with
          t := { st.t with
            tree := st.t.tree.add_child st.parent_node_idx
              { EntryData.default with name := path },
            io_errors := st.t.io_errors + 1 } } := by
      simp only [process_err_entry, if_pos h0, Tree.add_child]
    rw [heq]
    refine ⟨⟨hs.root0, ?_, ?_, ?_, hs.chainLen, hs.stackLen, ?_⟩,
      rfl, rfl, rfl, ?_⟩
    · show 0 < (st.t.tree.add_child st.parent_node_idx
        { EntryData.default with name := path }).nodes.size
      rw [Tree.add_child_size]
      omega
    · show (st.t.tree.add_child st.parent_node_idx
        { EntryData.default with name := path }).parentOf 0 = none
      rw [Tree.add_child_parentOf_old _ _ _ hs.rootIn]
      exact hs.rootPar
    · show ChainS _ [] st.parent_node_idx
      rw [hpar0]
      exact ChainS.nil
    · rcases hs.prevOk with ⟨h1, h2⟩ | h1
      · exact Or.inl ⟨h1, h2⟩
      · exact Or.inr (Tree.add_child_preserves _ _ h1)
    · intro j p hj
      exact Tree.add_child_preserves _ _ hj
  · have heq : process_err_entry path st =
        { st with t := { st.t with io_errors := st.t.io_errors + 1 } } := by
      simp only [process_err_entry, if_neg h0]
    rw [heq]
    exact ⟨⟨hs.root0, hs.rootIn, hs.rootPar, hs.chain, hs.chainLen,
      hs.stackLen, hs.prevOk⟩, rfl, rfl, rfl, fun j p hj => hj⟩

theorem sinv_step_ok {opts : WalkOptions} {path : String} {did : Nat}
    {st : WalkState} {c : List Nat} {e : Entry} (hs : SInv st c)
    (hd : e.depth ≤ st.previous_depth + 1)
    (hdesc : e.depth = st.previous_depth + 1 →
      st.t.tree.parentOf st.previous_node_idx = some st.parent_node_idx) :
    ∃ st' c', process_ok_entry opts path did st e = Except.ok st' ∧
      SInv st' c' ∧ st'.previous_depth = e.depth ∧
      st'.t.tree.parentOf st'.previous_node_idx =
        some st'.parent_node_idx := by
  rcases Nat.lt_trichotomy e.depth st.previous_depth with hlt | heq | hgt
  · -- unwind case
    rw [process_ok_entry_lt opts path did st e hlt]
    obtain ⟨t₁, par₁, stack₁, cur₁, hrun, hsz₁, hpar₁, hch₁, hst₁⟩ :=
      mid_unwind_ok_struct hs.chain hs.rootIn (st.previous_depth - e.depth)
        st.sizes_per_depth_level st.current_size_at_depth
        (by rw [hs.chainLen]; omega) (by rw [hs.stackLen]; omega)
    have hroot₁ : 0 < t₁.nodes.size := by
      have := hs.rootIn; omega
    obtain ⟨t₂, hset⟩ := set_size_some
      (cur₁ + (entry_accounting opts did st.inodes e).1) (hch₁.par_lt hroot₁)
    rw [hrun]
    simp only []
    rw [hset]
    have hch₂ : ChainS t₂ (c.drop (st.previous_depth - e.depth)) par₁ :=
      hch₁.congr t₂ (fun j q hq => by rw [set_size_parentOf hset]; exact hq)
    refine ⟨_, c.drop (st.previous_depth - e.depth), rfl, ?_, rfl, ?_⟩
    · refine ⟨hs.root0, ?_, ?_, ?_, ?_, ?_, ?_⟩
      · show 0 < (t₂.add_child par₁ _).nodes.size
        have h2 := set_size_size hset
        rw [Tree.add_child_size]
        omega
      · show (t₂.add_child par₁ _).parentOf 0 = none
        have h0 : 0 < t₂.nodes.size := by
          have := set_size_size hset; omega
        rw [Tree.add_child_parentOf_old _ _ _ h0]
        rw [set_size_parentOf hset, hpar₁ 0]
        exact hs.rootPar
      · exact hch₂.congr _ (fun j q hq => Tree.add_child_preserves _ _ hq)
      · show (c.drop (st.previous_depth - e.depth)).length = e.depth
        rw [List.length_drop, hs.chainLen]
        omega
      · show stack₁.length = e.depth
        rw [hst₁, List.length_drop, hs.stackLen]
        omega
      · refine Or.inr ?_
        show (t₂.add_child par₁ _).parentOf t₂.nodes.size = some par₁
        exact Tree.add_child_parentOf_new t₂ par₁ _
    · show (t₂.add_child par₁ _).parentOf t₂.nodes.size = some par₁
      exact Tree.add_child_parentOf_new t₂ par₁ _
  · -- same-depth case
    rw [process_ok_entry_eq_depth opts path did st e heq]
    refine ⟨_, c, rfl, ?_, rfl, ?_⟩
    · refine ⟨hs.root0, ?_, ?_, ?_, by rw [hs.chainLen, heq], by
        rw [hs.stackLen, heq], ?_⟩
      · have := Tree.add_child_size st.t.tree st.parent_node_idx
          { name := if e.depth < 1 then path else e.file_name,
            size := (entry_accounting opts did st.inodes e).1,
            mtime := (entry_accounting opts did st.inodes e).2.2.2.1,
            metadata_io_error := (entry_accounting opts did st.inodes e).2.2.1 }
        have h2 := hs.rootIn
        simp only []
        omega
      · show (st.t.tree.add_child st.parent_node_idx _).parentOf 0 = none
        rw [Tree.add_child_parentOf_old _ _ _ hs.rootIn]
        exact hs.rootPar
      · exact hs.chain.congr _ (fun j q hq => Tree.add_child_preserves _ _ hq)
      · refine Or.inr ?_
        show (st.t.tree.add_child st.parent_node_idx _).parentOf
          st.t.tree.nodes.size = some st.parent_node_idx
        exact Tree.add_child_parentOf_new _ _ _
    · show (st.t.tree.add_child st.parent_node_idx _).parentOf
        st.t.tree.nodes.size = some st.parent_node_idx
      exact Tree.add_child_parentOf_new _ _ _
  · -- descend case
    have hde : e.depth = st.previous_depth + 1 := by omega
    have hprev := hdesc hde
    rw [process_ok_entry_gt opts path did st e hgt]
    refine ⟨_, st.previous_node_idx :: c, rfl, ?_, rfl, ?_⟩
    · refine ⟨hs.root0, ?_, ?_, ?_, by simpa [hs.chainLen] using hde.symm, by
        simpa [hs.stackLen] using hde.symm, ?_⟩
      · have := Tree.add_child_size st.t.tree st.previous_node_idx
          { name := if e.depth < 1 then path else e.file_name,
            size := (entry_accounting opts did st.inodes e).1,
            mtime := (entry_accounting opts did st.inodes e).2.2.2.1,
            metadata_io_error := (entry_accounting opts did st.inodes e).2.2.1 }
        have h2 := hs.rootIn
        simp only []
        omega
      · show (st.t.tree.add_child st.previous_node_idx _).parentOf 0 = none
        rw [Tree.add_child_parentOf_old _ _ _ hs.rootIn]
        exact hs.rootPar
      · refine @ChainS.cons _ c st.parent_node_idx st.previous_node_idx ?_ ?_
        · exact hs.chain.congr _
            (fun j q hq => Tree.add_child_preserves _ _ hq)
        · exact Tree.add_child_preserves _ _ hprev
      · refine Or.inr ?_
        show (st.t.tree.add_child st.previous_node_idx _).parentOf
          st.t.tree.nodes.size = some st.previous_node_idx
        exact Tree.add_child_parentOf_new _ _ _
    · show (st.t.tree.add_child st.previous_node_idx _).parentOf
        st.t.tree.nodes.size = some st.previous_node_idx
      exact Tree.add_child_parentOf_new _ _ _

theorem except_bind_ok {ε α β : Type} (a : α) (f : α → Except ε β) :
    (Except.ok a >>= f : Except ε β) = f a := rfl

theorem except_bind_error {ε α β : Type} (e : ε) (f : α → Except ε β) :
    ((Except.error e : Except ε α) >>= f : Except ε β) = Except.error e := rfl

theorem except_dot_bind_ok {ε α β : Type} (a : α) (f : α → Except ε β) :
    (Except.ok a : Except ε α).bind f = f a := rfl

theorem check_update_cases (update : Traversal → Except Unit Bool)
    (fires : Nat → Bool) (st : WalkState) :
    check_update update fires st = Except.ok st ∨
    (check_update update fires st = .error .cancelled ∧
      update st.t = .ok true) ∨
    (∃ u, check_update update fires st = .error .errored ∧
      update st.t = .error u) := by
  unfold check_update
  by_cases hf : fires st.t.entries_traversed
  · simp only [hf, if_true]
    rcases hu : update st.t with u | b
    · exact Or.inr (Or.inr ⟨u, rfl, rfl⟩)
    · cases b
      · exact Or.inl rfl
      · exact Or.inr (Or.inl ⟨rfl, rfl⟩)
  · simp [hf]

theorem process_entry_err_eq (opts : WalkOptions) (path : String) (did : Nat)
    (update : Traversal → Except Unit Bool) (fires : Nat → Bool)
    (st : WalkState) (u : Unit) :
    process_entry opts path did update fires st (.error u) =
      check_update update fires (process_err_entry path
        { st with t.entries_traversed := st.t.entries_traversed + 1 }) := by
  simp [process_entry, bind, Except.bind]

theorem process_entry_ok_eq (opts : WalkOptions) (path : String) (did : Nat)
    (update : Traversal → Except Unit Bool) (fires : Nat → Bool)
    (st : WalkState) (e : Entry) :
    process_entry opts path did update fires st (.ok e) =
      (process_ok_entry opts path did
        { st with t.entries_traversed := st.t.entries_traversed + 1 }
        e).bind (check_update update fires) := by
  rcases hr : process_ok_entry opts path did
      { st with t.entries_traversed := st.t.entries_traversed + 1 } e with
    ex | st₂ <;>
    simp [process_entry, bind, Except.bind, hr]

/-- The structural run lemma: folding a stream that satisfies the Walker's
pre-order depth-first contract over the entry loop never panics — it either
exits through the cancellation callback or ends in a state that again satisfies
the structural invariant. -/
theorem run_struct {d : Nat} {s : List (Except Unit Entry)} {f : List ETree}
    (hm : Matches d s f) :
    ∀ (opts : WalkOptions) (path : String) (did : Nat)
      (update : Traversal → Except Unit Bool) (fires : Nat → Bool)
      (st : WalkState) (c : List Nat),
      SInv st c → d ≤ st.previous_depth + 1 →
      (d = st.previous_depth + 1 →
        st.t.tree.parentOf st.previous_node_idx = some st.parent_node_idx) →
      (∃ ex, s.foldlM (process_entry opts path did update fires) st =
          .error ex ∧ ex ≠ RunExit.abort) ∨
      (∃ st' c', s.foldlM (process_entry opts path did update fires) st =
          Except.ok st' ∧ SInv st' c' ∧ d ≤ st'.previous_depth + 1) := by
  induction hm with
  | nil d =>
    intro opts path did update fires st c hs hd hdesc
    exact Or.inr ⟨st, c, rfl, hs, hd⟩
  | err d u hm ih =>
    intro opts path did update fires st c hs hd hdesc
    rw [List.foldlM_cons, process_entry_err_eq]
    obtain ⟨hs₂, hpd₂, hprev₂, hpar₂, hmono₂⟩ := sinv_step_err (sinv_bump hs)
    rcases check_update_cases update fires
        (process_err_entry path
          { st with t.entries_traversed := st.t.entries_traversed + 1 }) with
      hok | ⟨hc, _⟩ | ⟨u₂, hc, _⟩
    · rw [hok, except_bind_ok]
      apply ih opts path did update fires _ c hs₂
      · rw [hpd₂]; exact hd
      · intro hde
        rw [hprev₂, hpar₂]
        apply hmono₂
        apply hdesc
        rw [hpd₂] at hde
        exact hde
    · rw [hc, except_bind_error]
      exact Or.inl ⟨RunExit.cancelled, rfl, by simp⟩
    · rw [hc, except_bind_error]
      exact Or.inl ⟨RunExit.errored, rfl, by simp⟩
  | cons d hdepth hm₁ hm₂ ih₁ ih₂ =>
    intro opts path did update fires st c hs hd hdesc
    rw [List.foldlM_cons, process_entry_ok_eq]
    rename_i e s₁ s₂ cs fr
    obtain ⟨st₂, c₂, hok, hs₂, hpd₂, hlink₂⟩ :=
      @sinv_step_ok opts path did
        { st with t.entries_traversed := st.t.entries_traversed + 1 } c e
        (sinv_bump hs) (by rw [hdepth]; exact hd)
        (by intro hde; rw [hdepth] at hde; exact hdesc hde)
    rw [hok, except_dot_bind_ok]
    rcases check_update_cases update fires st₂ with
      hcu | ⟨hc, _⟩ | ⟨u₂, hc, _⟩
    · rw [hcu, except_bind_ok, List.foldlM_append]
      have hpre₁ : d + 1 ≤ st₂.previous_depth + 1 := by
        rw [hpd₂, hdepth]
      rcases ih₁ opts path did update fires st₂ c₂ hs₂ hpre₁
          (fun _ => hlink₂) with ⟨ex, herr, hex⟩ | ⟨st₃, c₃, hfold₃, hs₃, hd₃⟩
      · rw [herr, except_bind_error]
        exact Or.inl ⟨ex, rfl, hex⟩
      · rw [hfold₃, except_bind_ok]
        exact ih₂ opts path did update fires st₃ c₃ hs₃ (by omega)
          (fun hcon => absurd hcon (by omega))
    · rw [hc, except_bind_error]
      exact Or.inl ⟨RunExit.cancelled, rfl, by simp⟩
    · rw [hc, except_bind_error]
      exact Or.inl ⟨RunExit.errored, rfl, by simp⟩

theorem mid_unwind_error :
    ∀ (k : Nat) (t : Tree) (p : Nat) (s : List Nat) (c : Nat) (ex : RunExit),
      mid_unwind k t p s c = .error ex → ex = RunExit.abort := by
  intro k
  induction k with
  | zero => intro t p s c ex h; cases h
  | succ k ih =>
    intro t p s c ex h
    rw [mid_unwind] at h
    rcases h1 : set_size_or_panic t p c with _ | t₁
    · rw [h1] at h; cases h; rfl
    · rw [h1] at h
      rcases s with _ | ⟨a, s₂⟩
      · simp only [pop_or_panic] at h; cases h; rfl
      · simp only [pop_or_panic] at h
        rcases h2 : parent_or_panic t₁ p with _ | q
        · rw [h2] at h; cases h; rfl
        · rw [h2] at h
          exact ih t₁ q s₂ (c + a) ex h

theorem final_unwind_error :
    ∀ (k : Nat) (t : Tree) (p : Nat) (s : List Nat) (c : Nat) (ex : RunExit),
      final_unwind k t p s c = .error ex → ex = RunExit.abort := by
  intro k
  induction k with
  | zero => intro t p s c ex h; cases h
  | succ k ih =>
    intro t p s c ex h
    rw [final_unwind] at h
    rcases s with _ | ⟨a, s₂⟩
    · simp only [pop_or_panic] at h; cases h; rfl
    · simp only [pop_or_panic] at h
      rcases h1 : set_size_or_panic t p (c + a) with _ | t₁
      · rw [h1] at h; cases h; rfl
      · rw [h1] at h
        simp only [] at h
        rcases h2 : parent_or_panic t₁ p with _ | q
        · rw [h2] at h; cases h; rfl
        · rw [h2] at h
          exact ih t₁ q s₂ (c + a) ex h

theorem process_ok_entry_error {opts : WalkOptions} {path : String} {did : Nat}
    {st : WalkState} {e : Entry} {ex : RunExit}
    (h : process_ok_entry opts path did st e = .error ex) :
    ex = RunExit.abort := by
  rcases Nat.lt_trichotomy e.depth st.previous_depth with hlt | heq | hgt
  · rw [process_ok_entry_lt opts path did st e hlt] at h
    rcases h1 : mid_unwind (st.previous_depth - e.depth) st.t.tree
        st.parent_node_idx st.sizes_per_depth_level
        st.current_size_at_depth with ex₁ | r
    · rw [h1] at h
      cases h
      exact mid_unwind_error _ _ _ _ _ _ h1
    · rw [h1] at h
      simp only [] at h
      rcases h2 : set_size_or_panic r.1 r.2.1
          (r.2.2.2 + (entry_accounting opts did st.inodes e).1) with _ | t₂
      · rw [h2] at h; cases h; rfl
      · rw [h2] at h; cases h
  · rw [process_ok_entry_eq_depth opts path did st e heq] at h
    cases h
  · rw [process_ok_entry_gt opts path did st e hgt] at h
    cases h

theorem check_update_error {update : Traversal → Except Unit Bool}
    {fires : Nat → Bool} {st : WalkState} {ex : RunExit}
    (h : check_update update fires st = .error ex) :
    (ex = RunExit.cancelled ∧ update st.t = .ok true) ∨
    (ex = RunExit.errored ∧ ∃ u, update st.t = .error u) := by
  rcases check_update_cases update fires st with hok | ⟨hc, hu⟩ | ⟨u, hc, hu⟩
  · rw [hok] at h; cases h
  · rw [hc] at h; cases h; exact Or.inl ⟨rfl, hu⟩
  · rw [hc] at h; cases h; exact Or.inr ⟨rfl, ⟨u, hu⟩⟩

theorem process_entry_error_origin {opts : WalkOptions} {path : String}
    {did : Nat} {update : Traversal → Except Unit Bool} {fires : Nat → Bool}
    {st : WalkState} {item : Except Unit Entry} {ex : RunExit}
    (h : process_entry opts path did update fires st item = .error ex) :
    ex = RunExit.abort ∨
    (ex = RunExit.cancelled ∧ ∃ tr, update tr = .ok true) ∨
    (ex = RunExit.errored ∧ ∃ tr u, update tr = .error u) := by
  rcases item with u | e
  · rw [process_entry_err_eq] at h
    rcases check_update_error h with ⟨he, hu⟩ | ⟨he, u₂, hu⟩
    · exact Or.inr (Or.inl ⟨he, _, hu⟩)
    · exact Or.inr (Or.inr ⟨he, _, u₂, hu⟩)
  · rw [process_entry_ok_eq] at h
    rcases h1 : process_ok_entry opts path did
        { st with t.entries_traversed := st.t.entries_traversed + 1 } e with
      ex₁ | st₂
    · rw [h1] at h
      cases h
      exact Or.inl (process_ok_entry_error h1)
    · rw [h1, except_dot_bind_ok] at h
      rcases check_update_error h with ⟨he, hu⟩ | ⟨he, u₂, hu⟩
      · exact Or.inr (Or.inl ⟨he, _, hu⟩)
      · exact Or.inr (Or.inr ⟨he, _, u₂, hu⟩)

theorem foldlM_entries_error_origin {opts : WalkOptions} {path : String}
    {did : Nat} {update : Traversal → Except Unit Bool} {fires : Nat → Bool} :
    ∀ {s : List (Except Unit Entry)} {st : WalkState} {ex : RunExit},
      s.foldlM (process_entry opts path did update fires) st = .error ex →
      ex = RunExit.abort ∨
      (ex = RunExit.cancelled ∧ ∃ tr, update tr = .ok true) ∨
      (ex = RunExit.errored ∧ ∃ tr u, update tr = .error u) := by
  intro s
  induction s with
  | nil => intro st ex h; cases h
  | cons item rest ih =>
    intro st ex h
    rw [List.foldlM_cons] at h
    rcases h1 : process_entry opts path did update fires st item with ex₁ | st₂
    · rw [h1, except_bind_error] at h
      cases h
      exact process_entry_error_origin h1
    · rw [h1, except_bind_ok] at h
      exact ih h

theorem process_root_error_origin {opts : WalkOptions}
    {update : Traversal → Except Unit Bool} {fires : Nat → Bool}
    {st : WalkState} {r : Root} {ex : RunExit}
    (h : process_root opts update fires st r = .error ex) :
    ex = RunExit.abort ∨
    (ex = RunExit.cancelled ∧ ∃ tr, update tr = .ok true) ∨
    (ex = RunExit.errored ∧ ∃ tr u, update tr = .error u) := by
  unfold process_root at h
  rcases hdev : r.device_id with u | did
  · rw [hdev] at h; cases h
  · rw [hdev] at h
    exact foldlM_entries_error_origin h

theorem foldlM_roots_error_origin {opts : WalkOptions}
    {update : Traversal → Except Unit Bool} {fires : Nat → Bool} :
    ∀ {input : List Root} {st : WalkState} {ex : RunExit},
      input.foldlM (process_root opts update fires) st = .error ex →
      ex = RunExit.abort ∨
      (ex = RunExit.cancelled ∧ ∃ tr, update tr = .ok true) ∨
      (ex = RunExit.errored ∧ ∃ tr u, update tr = .error u) := by
  intro input
  induction input with
  | nil => intro st ex h; cases h
  | cons r rest ih =>
    intro st ex h
    rw [List.foldlM_cons] at h
    rcases h1 : process_root opts update fires st r with ex₁ | st₂
    · rw [h1, except_bind_error] at h
      cases h
      exact process_root_error_origin h1
    · rw [h1, except_bind_ok] at h
      exact ih h

theorem from_walker_error_origin {opts : WalkOptions} {input : List Root}
    {update : Traversal → Except Unit Bool} {fires : Nat → Bool} {ex : RunExit}
    (h : Traversal.from_walker opts input update fires = .error ex) :
    ex = RunExit.abort ∨
    (ex = RunExit.cancelled ∧ ∃ tr, update tr = .ok true) ∨
    (ex = RunExit.errored ∧ ∃ tr u, update tr = .error u) := by
  unfold Traversal.from_walker at h
  rcases h1 : input.foldlM (process_root opts update fires) init_walk_state with
    ex₁ | st
  · rw [h1] at h
    cases h
    exact foldlM_roots_error_origin h1
  · rw [h1, except_bind_ok] at h
    rcases h2 : final_unwind st.previous_depth st.t.tree st.parent_node_idx
        (st.current_size_at_depth :: st.sizes_per_depth_level) 0 with ex₂ | r
    · rw [h2] at h
      cases h
      exact Or.inl (final_unwind_error _ _ _ _ _ _ h2)
    · rw [h2, except_bind_ok] at h
      simp only [] at h
      split at h
      · cases h
        exact Or.inl rfl
      · cases h

theorem sinv_init : SInv init_walk_state [] := by
  refine ⟨rfl, ?_, ?_, ?_, rfl, rfl, Or.inl ⟨rfl, rfl⟩⟩
  · show 0 < (1 : Nat)
    omega
  · rfl
  · exact ChainS.nil

theorem sinv_io_bump {st : WalkState} {c : List Nat} (hs : SInv st c) :
    SInv { st with t.io_errors := st.t.io_errors + 1 } c :=
  ⟨hs.root0, hs.rootIn, hs.rootPar, hs.chain, hs.chainLen, hs.stackLen,
   hs.prevOk⟩

/-- The root loop preserves the structural invariant when every root with a
resolvable device id honours the Walker contract. -/
theorem run_struct_roots (opts : WalkOptions)
    (update : Traversal → Except Unit Bool) (fires : Nat → Bool) :
    ∀ (input : List Root),
      (∀ r ∈ input, ∀ did, r.device_id = Except.ok did →
        ∃ f, Matches 0 r.entries f) →
      ∀ (st : WalkState) (c : List Nat), SInv st c →
      (∃ ex, input.foldlM (process_root opts update fires) st = .error ex ∧
        ex ≠ RunExit.abort) ∨
      (∃ st' c', input.foldlM (process_root opts update fires) st =
        Except.ok st' ∧ SInv st' c') := by
  intro input
  induction input with
  | nil =>
    intro hv st c hs
    exact Or.inr ⟨st, c, rfl, hs⟩
  | cons r rest ih =>
    intro hv st c hs
    rw [List.foldlM_cons]
    rcases hdev : r.device_id with u | did
    · have hpr : process_root opts update fires st r =
          Except.ok { st with t.io_errors := st.t.io_errors + 1 } := by
        simp [process_root, hdev]
      rw [hpr, except_bind_ok]
      exact ih (fun q hq => hv q (List.mem_cons_of_mem r hq)) _ c
        (sinv_io_bump hs)
    · have hpr : process_root opts update fires st r =
          r.entries.foldlM (process_entry opts r.path did update fires) st := by
        simp [process_root, hdev]
      rw [hpr]
      obtain ⟨f, hm⟩ := hv r (List.mem_cons_self r rest) did hdev
      rcases run_struct hm opts r.path did update fires st c hs (by omega)
          (fun hcon => absurd hcon (by omega)) with
        ⟨ex, herr, hex⟩ | ⟨st₂, c₂, hfold, hs₂, _⟩
      · rw [herr, except_bind_error]
        exact Or.inl ⟨ex, rfl, hex⟩
      · rw [hfold, except_bind_ok]
        exact ih (fun q hq => hv q (List.mem_cons_of_mem r hq)) st₂ c₂ hs₂

/-- Under the Walker contract, a whole `from_walker` run either exits through a
non-abort error (a cancellation or a callback error) or returns a traversal:
the abort paths of the unwinding machinery are never taken. -/
theorem from_walker_struct_ok (opts : WalkOptions) (input : List Root)
    (update : Traversal → Except Unit Bool) (fires : Nat → Bool)
    (hv : ∀ r ∈ input, ∀ did, r.device_id = Except.ok did →
      ∃ f, Matches 0 r.entries f) :
    (∃ ex, Traversal.from_walker opts input update fires = Except.error ex ∧
      ex ≠ RunExit.abort) ∨
    (∃ t, Traversal.from_walker opts input update fires = Except.ok t) := by
  unfold Traversal.from_walker
  rcases run_struct_roots opts update fires input hv init_walk_state [] sinv_init
    with ⟨ex, herr, hex⟩ | ⟨st, c, hfold, hs⟩
  · rw [herr, except_bind_error]
    exact Or.inl ⟨ex, rfl, hex⟩
  · rw [hfold, except_bind_ok]
    have hlen : c.length ≤
        (st.current_size_at_depth :: st.sizes_per_depth_level).length := by
      have h1 := hs.chainLen
      have h2 := hs.stackLen
      simp only [List.length_cons]
      omega
    obtain ⟨t₁, par₁, hfu, hsz₁⟩ :=
      final_unwind_ok_struct hs.chain
        (st.current_size_at_depth :: st.sizes_per_depth_level) 0 hlen
    rw [hs.chainLen] at hfu
    rw [hfu, except_bind_ok]
    simp only []
    have hroot₁ : { st.t with tree := t₁ }.root_index <
        { st.t with tree := t₁ }.tree.nodes.size := by
      have := hs.rootIn
      have := hs.root0
      simp only []
      omega
    obtain ⟨tree₂, hset⟩ := set_size_some
      ({ st.t with tree := t₁ }.recompute_root_size) hroot₁
    rw [hset]
    exact Or.inr ⟨_, rfl⟩

/-- Every `Matches` stream opens with either an error item or an entry at the
root depth: an `Ok` head at any other depth violates the contract. -/
theorem matches_head_ok_depth {d : Nat} {e : Entry}
    {s : List (Except Unit Entry)} {f : List ETree}
    (hm : Matches d (Except.ok e :: s) f) : e.depth = d := by
  cases hm
  assumption

/-- C9 counterexample: the claim's final conjunct says a stream violating the
pre-order precondition "may only abort (panic), never return a wrong result
silently".  But `previous_depth` and `parent_node_idx` persist across roots:
after `c9Root1` ends its valid stream at depth 3, `c9Root2`'s sole entry — at
the contract-violating depth 3 (first conjunct: its stream matches no forest)
— takes the equal-depth arm and is attached as a child of node 3, root one's
depth-2 node "C".  The run returns `Ok` with zero `io_errors`: root two's
entry sits inside root one's subtree (its 16 bytes are folded into root one's
total of 30) and no node for root two exists — a silently wrong result, no
abort. -/
theorem claim_C9_counterexample :
    (¬ ∃ f, Matches 0 c9Root2.entries f) ∧
    (Traversal.from_walker {} [c9Root1, c9Root2] (fun _ => Except.ok false)
        (fun _ => false)).map
        (fun t => (t.io_errors, t.total_bytes, t.tree.nodes.map
          (fun n => (n.data.name, n.data.size, n.parent))))
      = Except.ok (0, some 30,
          #[("", 30, none), ("one", 30, some 0), ("B", 28, some 1),
            ("C", 24, some 2), ("D", 8, some 3), ("E", 16, some 3)]) := by
  constructor
  · rintro ⟨f, hm⟩
    have hd : (c6file "E" 3 16).depth = 0 :=
      matches_head_ok_depth
        (show Matches 0 (Except.ok (c6file "E" 3 16) :: []) f from hm)
    exact absurd hd (by decide)
  · rfl

/-- C9 (amended): (1) under the Walker's pre-order depth-first contract (each
resolvable root's stream is an interleaving of enumeration errors into the
flattening of a depth-labelled forest), the panic branches of `pop_or_panic`,
`parent_or_panic` and `set_size_or_panic` are unreachable: `from_walker` never
aborts — the per-depth size stack and the parent chain always hold an element
when popped or dereferenced.  (2) For an arbitrary stream, contract-violating
or not, every abnormal exit is accounted for: it is the abort (the fail-fast
panic), or a cancellation the update callback actually requested, or an error
the callback actually returned.  (A violating stream is NOT guaranteed to
abort: the depth state persists across roots, so a later root opening at the
inherited depth is silently attached inside the earlier root's subtree and the
call returns `Ok` — see `claim_C9_counterexample`; the original claim's
"never return a wrong result silently" conjunct is dropped.) -/
theorem claim_C9_amended :
    (∀ (opts : WalkOptions) (input : List Root)
        (update : Traversal → Except Unit Bool) (fires : Nat → Bool),
      (∀ r ∈ input, ∀ did, r.device_id = Except.ok did →
        ∃ f, Matches 0 r.entries f) →
      Traversal.from_walker opts input update fires ≠
        Except.error RunExit.abort) ∧
    (∀ (opts : WalkOptions) (input : List Root)
        (update : Traversal → Except Unit Bool) (fires : Nat → Bool)
        (ex : RunExit),
      Traversal.from_walker opts input update fires = Except.error ex →
      ex = RunExit.abort ∨
      (ex = RunExit.cancelled ∧ ∃ tr, update tr = Except.ok true) ∨
      (ex = RunExit.errored ∧ ∃ tr u, update tr = Except.error u)) := by
  refine ⟨?_, fun opts input update fires ex h => from_walker_error_origin h⟩
  intro opts input update fires hv
  rcases from_walker_struct_ok opts input update fires hv with
    ⟨ex, herr, hex⟩ | ⟨t, hok⟩
  · intro hcon
    rw [herr] at hcon
    injection hcon with h
    exact hex h
  · intro hcon
    rw [hok] at hcon
    cases hcon

theorem claim_C9_amended_witness :
    (Traversal.from_walker {} [c8Root] (fun _ => Except.ok false)
        (fun _ => false) ≠ Except.error RunExit.abort) ∧
    (RunExit.cancelled = RunExit.abort ∨
     (RunExit.cancelled = RunExit.cancelled ∧
       ∃ tr : Traversal, (fun _ => (Except.ok true : Except Unit Bool)) tr =
         Except.ok true) ∨
     (RunExit.cancelled = RunExit.errored ∧
       ∃ (tr : Traversal) (u : Unit),
         (fun _ => (Except.ok true : Except Unit Bool)) tr =
           Except.error u)) := by
  constructor
  · refine claim_C9_amended.1 {} [c8Root] (fun _ => Except.ok false)
      (fun _ => false) ?_
    intro r hr did hdev
    have hre : r = c8Root := by
      simpa using hr
    subst hre
    refine ⟨[ETree.node (simpleEntry false "a.txt" 5) []], ?_⟩
    show Matches 0 (Except.ok (simpleEntry false "a.txt" 5) ::
      ([] ++ [Except.error ()])) _
    exact Matches.cons 0 rfl (Matches.nil 1) (Matches.err 0 () (Matches.nil 0))
  · exact claim_C9_amended.2 {} [c8Root] (fun _ => Except.ok true)
      (fun _ => true) RunExit.cancelled rfl

/-- With an always-firing throttle and an always-true callback, any single
entry processed from a `previous_depth = 0` state cancels the run. -/
theorem process_entry_cancels (opts : WalkOptions) (path : String)
    (device_id : Nat) (update : Traversal → Except Unit Bool)
    (fires : Nat → Bool) (st : WalkState) (item : Except Unit Entry)
    (hd : st.previous_depth = 0)
    (hf : ∀ n, fires n = true)
    (hu : ∀ tr, update tr = Except.ok true) :
    process_entry opts path device_id update fires st item =
      Except.error RunExit.cancelled := by
  rcases item with u | e
  · simp [process_entry, process_err_entry, check_update, hd, hf, hu, bind,
      Except.bind]
  · rcases Nat.eq_zero_or_pos e.depth with h0 | hpos
    · simp [process_entry, process_ok_entry, check_update, hd, h0, hf, hu,
        bind, Except.bind]
    · simp [process_entry, process_ok_entry, check_update, hd, hpos, hf, hu,
        bind, Except.bind]

/-- With an always-firing throttle and an always-true callback the root loop
cancels at the first entry of the first root that yields any: roots before it
either fail device-id resolution or have empty streams, and neither consults
the callback. -/
theorem foldlM_roots_cancels (opts : WalkOptions)
    (update : Traversal → Except Unit Bool) (fires : Nat → Bool)
    (hf : ∀ n, fires n = true) (hu : ∀ tr, update tr = Except.ok true) :
    ∀ (pre : List Root) (r : Root) (rest : List Root) (st : WalkState),
      (∀ p ∈ pre, p.device_id = Except.error () ∨ p.entries = []) →
      (∃ did, r.device_id = Except.ok did) →
      r.entries ≠ [] →
      st.previous_depth = 0 →
      (pre ++ r :: rest).foldlM (process_root opts update fires) st =
        Except.error RunExit.cancelled := by
  intro pre
  induction pre with
  | nil =>
    intro r rest st _ hdev hne hd
    obtain ⟨did, hdid⟩ := hdev
    rcases he : r.entries with _ | ⟨e, es⟩
    · exact absurd he hne
    · simp only [List.nil_append, List.foldlM_cons]
      have hpr : process_root opts update fires st r =
          (e :: es).foldlM (process_entry opts r.path did update fires) st := by
        simp [process_root, hdid, he]
      rw [hpr, List.foldlM_cons,
        process_entry_cancels opts r.path did update fires st e hd hf hu,
        except_bind_error, except_bind_error]
  | cons p pre ih =>
    intro r rest st hpre hdev hne hd
    simp only [List.cons_append, List.foldlM_cons]
    rcases hpre p (List.mem_cons_self p pre) with hperr | hpemp
    · have hpr : process_root opts update fires st p =
          Except.ok { st with t.io_errors := st.t.io_errors + 1 } := by
        simp [process_root, hperr]
      rw [hpr, except_bind_ok]
      exact ih r rest _ (fun q hq => hpre q (List.mem_cons_of_mem p hq))
        hdev hne hd
    · rcases hpd : p.device_id with u | did
      · have hpr : process_root opts update fires st p =
            Except.ok { st with t.io_errors := st.t.io_errors + 1 } := by
          simp [process_root, hpd]
        rw [hpr, except_bind_ok]
        exact ih r rest _ (fun q hq => hpre q (List.mem_cons_of_mem p hq))
          hdev hne hd
      · have hpr : process_root opts update fires st p = Except.ok st := by
          simp [process_root, hpd, hpemp, pure, Except.pure]
        rw [hpr, except_bind_ok]
        exact ih r rest st (fun q hq => hpre q (List.mem_cons_of_mem p hq))
          hdev hne hd

/-- C7 ("no result" is `Except.error RunExit.cancelled` in the embedding):
(a) a cancelled exit happens only because the update callback returned true at
a throttled invocation, on an actual in-progress traversal of the run;
(b) cancellation discards everything: the deciding step `check_update` returns
the bare cancellation token — carrying no traversal — whenever the throttle
fires and the callback says true;
(c) on a contract-honouring stream where the callback never requests a stop
(and never fails), a traversal is returned;
(d) conversely cancellation is reachable: with an always-firing throttle and an
always-true callback, the run is cancelled as soon as the first entry of the
first root that yields entries is processed. -/
theorem claim_C7 :
    (∀ (opts : WalkOptions) (input : List Root)
        (update : Traversal → Except Unit Bool) (fires : Nat → Bool),
      Traversal.from_walker opts input update fires =
          Except.error RunExit.cancelled →
      ∃ tr, update tr = Except.ok true) ∧
    (∀ (update : Traversal → Except Unit Bool) (fires : Nat → Bool)
        (st : WalkState),
      fires st.t.entries_traversed = true → update st.t = Except.ok true →
      check_update update fires st = Except.error RunExit.cancelled) ∧
    (∀ (opts : WalkOptions) (input : List Root)
        (update : Traversal → Except Unit Bool) (fires : Nat → Bool),
      (∀ r ∈ input, ∀ did, r.device_id = Except.ok did →
        ∃ f, Matches 0 r.entries f) →
      (∀ tr, update tr ≠ Except.ok true) →
      (∀ tr u, update tr ≠ Except.error u) →
      ∃ t, Traversal.from_walker opts input update fires = Except.ok t) ∧
    (∀ (opts : WalkOptions) (update : Traversal → Except Unit Bool)
        (fires : Nat → Bool) (pre : List Root) (r : Root) (rest : List Root),
      (∀ n, fires n = true) → (∀ tr, update tr = Except.ok true) →
      (∀ p ∈ pre, p.device_id = Except.error () ∨ p.entries = []) →
      (∃ did, r.device_id = Except.ok did) → r.entries ≠ [] →
      Traversal.from_walker opts (pre ++ r :: rest) update fires =
        Except.error RunExit.cancelled) := by
  refine ⟨?_, ?_, ?_, ?_⟩
  · intro opts input update fires h
    rcases from_walker_error_origin h with h1 | ⟨_, h2⟩ | ⟨h3, _⟩
    · exact absurd h1 (by simp)
    · exact h2
    · exact absurd h3 (by simp)
  · intro update fires st hfi hup
    simp [check_update, hfi, hup]
  · intro opts input update fires hv hnc hne
    rcases from_walker_struct_ok opts input update fires hv with
      ⟨ex, herr, hex⟩ | ⟨t, hok⟩
    · rcases from_walker_error_origin herr with h1 | ⟨_, tr, h2⟩ | ⟨_, tr, u, h3⟩
      · exact absurd h1 hex
      · exact absurd h2 (hnc tr)
      · exact absurd h3 (hne tr u)
    · exact ⟨t, hok⟩
  · intro opts update fires pre r rest hf hu hpre hdev hne
    unfold Traversal.from_walker
    rw [foldlM_roots_cancels opts update fires hf hu pre r rest init_walk_state
      hpre hdev hne rfl, except_bind_error]

theorem claim_C7_witness :
    (∃ tr : Traversal, (fun _ => (Except.ok true : Except Unit Bool)) tr =
      Except.ok true) ∧
    check_update (fun _ => Except.ok true) (fun _ => true) init_walk_state =
      Except.error RunExit.cancelled ∧
    (∃ t, Traversal.from_walker {} [c8Root] (fun _ => Except.ok false)
      (fun _ => false) = Except.ok t) ∧
    Traversal.from_walker {} [c8Root] (fun _ => Except.ok true)
      (fun _ => true) = Except.error RunExit.cancelled := by
  refine ⟨?_, ?_, ?_, ?_⟩
  · exact claim_C7.1 {} [c8Root] (fun _ => Except.ok true) (fun _ => true) rfl
  · exact claim_C7.2.1 (fun _ => Except.ok true) (fun _ => true)
      init_walk_state rfl rfl
  · refine claim_C7.2.2.1 {} [c8Root] (fun _ => Except.ok false)
      (fun _ => false) ?_ ?_ ?_
    · intro r hr did hdev
      have hre : r = c8Root := by
        simpa using hr
      subst hre
      refine ⟨[ETree.node (simpleEntry false "a.txt" 5) []], ?_⟩
      show Matches 0 (Except.ok (simpleEntry false "a.txt" 5) ::
        ([] ++ [Except.error ()])) _
      exact Matches.cons 0 rfl (Matches.nil 1)
        (Matches.err 0 () (Matches.nil 0))
    · intro tr h
      simp at h
    · intro tr u h
      simp at h
  · exact claim_C7.2.2.2 {} (fun _ => Except.ok true) (fun _ => true)
      [] c8Root [] (fun n => rfl) (fun tr => rfl)
      (fun p hp => absurd hp (List.not_mem_nil p)) ⟨0, rfl⟩ (by simp [c8Root])

/-- A directory-flagged (or metadata-less, or unreadable) entry contributes
zero to the computed file size: `entry_gate` rejects directories outright. -/
theorem dirlike_accounting_zero (opts : WalkOptions) (did : Nat)
    (inodes : InodeFilter) (e : Entry) (h : DirLike e) :
    (entry_accounting opts did inodes e).1 = 0 := by
  unfold entry_accounting
  rcases hm : e.metadata with _ | m2
  · rfl
  · rcases m2 with u | m
    · rfl
    · have hd : m.is_dir = true := h m hm
      simp [entry_gate, hd]

theorem Tree.children_mem_lt {t : Tree} {j x : Nat} (h : j ∈ t.children x) :
    j < t.nodes.size :=
  Tree.parentOf_some_lt (Tree.mem_children.mp h)

theorem Tree.add_child_childSizeSum_ne (t : Tree) (p : Nat) (d : EntryData)
    {x : Nat} (hx : p ≠ x) :
    (t.add_child p d).childSizeSum x = t.childSizeSum x := by
  unfold Tree.childSizeSum
  rw [Tree.add_child_children, if_neg hx, List.append_nil]
  apply congrArg
  apply List.map_congr_left
  intro j hj
  exact Tree.add_child_sizeAt_old t p d (Tree.children_mem_lt hj)

theorem Tree.add_child_childSizeSum_eq (t : Tree) (p : Nat) (d : EntryData) :
    (t.add_child p d).childSizeSum p = t.childSizeSum p + d.size := by
  unfold Tree.childSizeSum
  rw [Tree.add_child_children, if_pos rfl, List.map_append, List.sum_append]
  have h1 : (t.children p).map (t.add_child p d).sizeAt =
      (t.children p).map t.sizeAt := by
    apply List.map_congr_left
    intro j hj
    exact Tree.add_child_sizeAt_old t p d (Tree.children_mem_lt hj)
  rw [h1]
  simp [Tree.add_child_sizeAt_new]

theorem Tree.add_child_childSizeSumExcept_ne (t : Tree) (p : Nat)
    (d : EntryData) {q : Nat} (x : Nat) (hq : p ≠ q) :
    (t.add_child p d).childSizeSumExcept q x = t.childSizeSumExcept q x := by
  unfold Tree.childSizeSumExcept
  rw [Tree.add_child_children, if_neg hq, List.append_nil]
  apply congrArg
  apply List.map_congr_left
  intro j hj
  have hj2 : j ∈ t.children q := List.mem_of_mem_filter hj
  exact Tree.add_child_sizeAt_old t p d (Tree.children_mem_lt hj2)

theorem set_size_childSizeSum {t t' : Tree} {i s : Nat}
    (hset : set_size_or_panic t i s = some t') {x : Nat}
    (hx : t.parentOf i ≠ some x) :
    t'.childSizeSum x = t.childSizeSum x := by
  unfold Tree.childSizeSum
  rw [set_size_children hset]
  apply congrArg
  apply List.map_congr_left
  intro j hj
  apply set_size_sizeAt_ne hset
  intro hji
  subst hji
  exact hx (Tree.mem_children.mp hj)

theorem set_size_childSizeSumExcept {t t' : Tree} {i s : Nat}
    (hset : set_size_or_panic t i s = some t') {q x : Nat}
    (hcond : t.parentOf i ≠ some q ∨ i = x) :
    t'.childSizeSumExcept q x = t.childSizeSumExcept q x := by
  unfold Tree.childSizeSumExcept
  rw [set_size_children hset]
  apply congrArg
  apply List.map_congr_left
  intro j hj
  apply set_size_sizeAt_ne hset
  intro hji
  subst hji
  have hjx : j ≠ x := by
    have := List.of_mem_filter hj
    simpa using this
  rcases hcond with h | h
  · exact h (Tree.mem_children.mp (List.mem_of_mem_filter hj))
  · exact hjx (h ▸ rfl)

theorem parentOf_none_of_ge {t : Tree} {j : Nat} (h : t.nodes.size ≤ j) :
    t.parentOf j = none := by
  unfold Tree.parentOf
  have hnone : t.nodes[j]? = none := by
    simp [Array.getElem?_eq_none_iff]
    omega
  simp [hnone]

theorem parentMono_congr {t t' : Tree} (hm : ParentMono t)
    (h : ∀ j, t'.parentOf j = t.parentOf j) : ParentMono t' := by
  intro j p hp
  apply hm j p
  rw [← h j]
  exact hp

theorem parentMono_set_size {t t' : Tree} {i s : Nat} (hm : ParentMono t)
    (hset : set_size_or_panic t i s = some t') : ParentMono t' :=
  parentMono_congr hm (fun j => set_size_parentOf hset j)

theorem parentMono_add_child {t : Tree} (hm : ParentMono t) {p : Nat}
    (hp : p < t.nodes.size) (d : EntryData) :
    ParentMono (t.add_child p d) := by
  intro j q hq
  rcases Nat.lt_trichotomy j t.nodes.size with hj | hj | hj
  · rw [Tree.add_child_parentOf_old t p d hj] at hq
    exact hm j q hq
  · subst hj
    rw [Tree.add_child_parentOf_new] at hq
    cases hq
    exact hp
  · have hn : (t.add_child p d).parentOf j = none := by
      apply parentOf_none_of_ge
      rw [Tree.add_child_size]
      omega
    rw [hn] at hq
    cases hq

theorem add_child_children_new {t : Tree} (hm : ParentMono t) {p : Nat}
    (hp : p < t.nodes.size) (d : EntryData) :
    (t.add_child p d).children t.nodes.size = [] := by
  apply List.eq_nil_iff_forall_not_mem.mpr
  intro j hj
  have hpar := Tree.mem_children.mp hj
  have hlt : j < (t.add_child p d).nodes.size := Tree.parentOf_some_lt hpar
  rw [Tree.add_child_size] at hlt
  rcases Nat.lt_or_ge j t.nodes.size with hjlt | hjge
  · rw [Tree.add_child_parentOf_old t p d hjlt] at hpar
    have := hm j _ hpar
    omega
  · have hj2 : j = t.nodes.size := by omega
    subst hj2
    rw [Tree.add_child_parentOf_new] at hpar
    cases hpar
    omega

theorem chainF_lengths {t : Tree} {c ss : List Nat} {par : Nat}
    (h : ChainF t c ss par) : ss.length = c.length := by
  induction h with
  | nil => rfl
  | cons hrest hlink ha ih => simp [ih]

theorem chainF_nil_inv {t : Tree} {ss : List Nat} {par : Nat}
    (h : ChainF t [] ss par) : ss = [] ∧ par = 0 := by
  cases h
  exact ⟨rfl, rfl⟩

theorem chainF_par_lt {t : Tree} {c ss : List Nat} {par : Nat}
    (h : ChainF t c ss par) (hroot : 0 < t.nodes.size) :
    par < t.nodes.size := by
  cases h with
  | nil => exact hroot
  | cons hrest hlink ha => exact Tree.parentOf_some_lt hlink

theorem chainF_head_mem {t : Tree} {c ss : List Nat} {par : Nat}
    (h : ChainF t c ss par) : par ∈ (0 :: c : List Nat) := by
  cases h with
  | nil => exact List.mem_cons_self 0 []
  | cons hrest hlink ha =>
    exact List.mem_cons_of_mem 0 (List.mem_cons_self _ _)

theorem chainF_add_child {t : Tree} (hm : ParentMono t) :
    ∀ {c ss : List Nat} {par : Nat}, ChainF t c ss par →
      ∀ {p : Nat}, par ≤ p → ∀ (d : EntryData),
      ChainF (t.add_child p d) c ss par := by
  intro c ss par h
  induction h with
  | nil =>
    intro p hp d
    exact ChainF.nil
  | cons hrest hlink ha ih =>
    rename_i c' ss' q n a
    intro p hp d
    have hqn : q < n := hm n q hlink
    refine ChainF.cons (ih (by omega) d)
      (Tree.add_child_preserves _ _ hlink) ?_
    rw [ha]
    exact (Tree.add_child_childSizeSumExcept_ne t p d n (by omega)).symm

theorem chainF_set_size {t t' : Tree} {i s : Nat} (hm : ParentMono t)
    (hset : set_size_or_panic t i s = some t') :
    ∀ {c ss : List Nat} {par : Nat}, ChainF t c ss par →
      (i = par ∨ ∃ b, t.parentOf i = some b ∧ par ≤ b) →
      ChainF t' c ss par := by
  intro c ss par h
  induction h with
  | nil =>
    intro _
    exact ChainF.nil
  | cons hrest hlink ha ih =>
    rename_i c' ss' q n a
    intro hcond
    have hqn : q < n := hm n q hlink
    refine ChainF.cons (ih ?_) ?_ ?_
    · rcases hcond with hin | ⟨b, hb, hnb⟩
      · exact Or.inr ⟨q, hin ▸ hlink, Nat.le_refl q⟩
      · exact Or.inr ⟨b, hb, by omega⟩
    · rw [set_size_parentOf hset]
      exact hlink
    · rw [ha]
      symm
      apply set_size_childSizeSumExcept hset
      rcases hcond with hin | ⟨b, hb, hnb⟩
      · exact Or.inr hin
      · refine Or.inl ?_
        rw [hb]
        intro hcon
        injection hcon with hbq
        omega

/-- Full mid-stream unwinding: starting from the invariant, closing `k` chain
levels writes each closed node's children-sum into it, returns the running sum
for the new open parent, and re-establishes the invariant on the rest. -/
theorem mid_unwind_ok_full :
    ∀ (k : Nat) {t : Tree} {c ss : List Nat} {par : Nat},
      ParentMono t → ChainF t c ss par → Closed t (0 :: c) →
      k ≤ c.length →
      ∃ t' par',
        mid_unwind k t par ss (t.childSizeSum par) =
          .ok (t', par', ss.drop k, t'.childSizeSum par') ∧
        t'.nodes.size = t.nodes.size ∧
        (∀ j, t'.parentOf j = t.parentOf j) ∧
        (∀ x, t'.children x = t.children x) ∧
        ChainF t' (c.drop k) (ss.drop k) par' ∧
        Closed t' (0 :: c.drop k) ∧
        ParentMono t' := by
  intro k
  induction k with
  | zero =>
    intro t c ss par hm h hcl hk
    exact ⟨t, par, rfl, rfl, fun j => rfl, fun x => rfl, h, hcl, hm⟩
  | succ k ih =>
    intro t c ss par hm h hcl hk
    rcases h with _ | @⟨c', ss', q, n, a, hrest, hlink, ha⟩
    · simp at hk
    have hn : par < t.nodes.size := Tree.parentOf_some_lt hlink
    have hqn : q < par := hm par q hlink
    obtain ⟨t₁, hset⟩ := set_size_some (t := t) (t.childSizeSum par) hn
    have hsizet : t₁.nodes.size = t.nodes.size := set_size_size hset
    have hm₁ : ParentMono t₁ := parentMono_set_size hm hset
    have hch₁ : ChainF t₁ c' ss' q :=
      chainF_set_size hm hset hrest (Or.inr ⟨q, hlink, Nat.le_refl q⟩)
    have hsum_n : t₁.childSizeSum par = t.childSizeSum par := by
      apply set_size_childSizeSum hset
      rw [hlink]
      intro hcon
      injection hcon with hc2
      omega
    have hsz_n : t₁.sizeAt par = t.childSizeSum par := set_size_sizeAt_eq hset
    have hexc : t₁.childSizeSumExcept q par = t.childSizeSumExcept q par :=
      set_size_childSizeSumExcept hset (Or.inr rfl)
    have hlink₁ : t₁.parentOf par = some q := by
      rw [set_size_parentOf hset]
      exact hlink
    have hcur₁ : t.childSizeSum par + a = t₁.childSizeSum q := by
      rw [Tree.childSizeSum_split hlink₁, hexc, hsz_n, ha]
      omega
    have hcl₁ : Closed t₁ (0 :: c') := by
      intro x hx hcne
      by_cases hxn : x = par
      · subst hxn
        rw [hsz_n]
        exact hsum_n.symm
      · have hx2 : x ∉ (0 :: par :: c' : List Nat) := by
          intro hcon
          rcases List.mem_cons.mp hcon with h1 | h2
          · exact hx (h1 ▸ List.mem_cons_self 0 c')
          · rcases List.mem_cons.mp h2 with h3 | h4
            · exact hxn h3
            · exact hx (List.mem_cons_of_mem 0 h4)
        have hq_mem : q ∈ (0 :: c' : List Nat) := chainF_head_mem hrest
        have hxq : x ≠ q := fun hcon => hx (hcon ▸ hq_mem)
        rw [set_size_sizeAt_ne hset hxn]
        have hcs : t₁.childSizeSum x = t.childSizeSum x := by
          apply set_size_childSizeSum hset
          rw [hlink]
          intro hcon
          injection hcon with hc2
          exact hxq hc2.symm
        rw [hcs]
        apply hcl x hx2
        rw [← set_size_children hset]
        exact hcne
    obtain ⟨t', par', hrun, hsz, hpar, hchd, hch', hcl', hm'⟩ :=
      ih hm₁ hch₁ hcl₁ (by simpa using hk)
    refine ⟨t', par', ?_, ?_, ?_, ?_, by simpa using hch',
      by simpa using hcl', hm'⟩
    · show mid_unwind (k + 1) t par (a :: ss') (t.childSizeSum par) = _
      simp only [mid_unwind, hset, pop_or_panic, parent_or_panic, hlink₁]
      rw [hcur₁]
      exact hrun
    · omega
    · intro j
      rw [hpar j, set_size_parentOf hset]
    · intro x
      rw [hchd x, set_size_children hset]

/-- Full end-of-walk unwinding: from the invariant, the final loop writes every
still-open chain node's children-sum into it and ends at the root with the
directory-sum property holding everywhere below the root. -/
theorem final_unwind_full :
    ∀ (c : List Nat) {t : Tree} {ss : List Nat} {par : Nat},
      ParentMono t → ChainF t c ss par → Closed t (0 :: c) →
      ∀ b acc, acc + b = t.childSizeSum par →
      ∃ t', final_unwind c.length t par (b :: ss) acc = .ok (t', 0) ∧
        t'.nodes.size = t.nodes.size ∧
        (∀ j, t'.parentOf j = t.parentOf j) ∧
        (∀ x, t'.children x = t.children x) ∧
        Closed t' [0] ∧ ParentMono t' := by
  intro c
  induction c with
  | nil =>
    intro t ss par hm h hcl b acc hsum
    obtain ⟨hss, hpar0⟩ := chainF_nil_inv h
    subst hpar0
    exact ⟨t, rfl, rfl, fun j => rfl, fun x => rfl, hcl, hm⟩
  | cons n c' ih =>
    intro t ss par hm h hcl b acc hsum
    rcases h with _ | @⟨c'', ss', q, n', a, hrest, hlink, ha⟩
    have hn : n < t.nodes.size := Tree.parentOf_some_lt hlink
    have hqn : q < n := hm n q hlink
    obtain ⟨t₁, hset⟩ := set_size_some (t := t) (acc + b) hn
    have hsizet : t₁.nodes.size = t.nodes.size := set_size_size hset
    have hm₁ : ParentMono t₁ := parentMono_set_size hm hset
    have hch₁ : ChainF t₁ c' ss' q :=
      chainF_set_size hm hset hrest (Or.inr ⟨q, hlink, Nat.le_refl q⟩)
    have hsz_n : t₁.sizeAt n = acc + b := set_size_sizeAt_eq hset
    have hsum_n : t₁.childSizeSum n = t.childSizeSum n := by
      apply set_size_childSizeSum hset
      rw [hlink]
      intro hcon
      injection hcon with hc2
      omega
    have hexc : t₁.childSizeSumExcept q n = t.childSizeSumExcept q n :=
      set_size_childSizeSumExcept hset (Or.inr rfl)
    have hlink₁ : t₁.parentOf n = some q := by
      rw [set_size_parentOf hset]
      exact hlink
    have hsum₁ : (acc + b) + a = t₁.childSizeSum q := by
      rw [Tree.childSizeSum_split hlink₁, hexc, hsz_n, ha, hsum]
      omega
    have hcl₁ : Closed t₁ (0 :: c') := by
      intro x hx hcne
      by_cases hxn : x = n
      · subst hxn
        rw [hsz_n, hsum]
        exact hsum_n.symm
      · have hx2 : x ∉ (0 :: n :: c' : List Nat) := by
          intro hcon
          rcases List.mem_cons.mp hcon with h1 | h2
          · exact hx (h1 ▸ List.mem_cons_self 0 c')
          · rcases List.mem_cons.mp h2 with h3 | h4
            · exact hxn h3
            · exact hx (List.mem_cons_of_mem 0 h4)
        have hq_mem : q ∈ (0 :: c' : List Nat) := chainF_head_mem hrest
        have hxq : x ≠ q := fun hcon => hx (hcon ▸ hq_mem)
        rw [set_size_sizeAt_ne hset hxn]
        have hcs : t₁.childSizeSum x = t.childSizeSum x := by
          apply set_size_childSizeSum hset
          rw [hlink]
          intro hcon
          injection hcon with hc2
          exact hxq hc2.symm
        rw [hcs]
        apply hcl x hx2
        rw [← set_size_children hset]
        exact hcne
    obtain ⟨t', hrun, hsz, hpar, hchd, hcl', hm'⟩ :=
      ih hm₁ hch₁ hcl₁ a (acc + b) hsum₁
    refine ⟨t', ?_, by omega, ?_, ?_, hcl', hm'⟩
    · show final_unwind (c'.length + 1) t n (b :: a :: ss') acc = _
      simp only [final_unwind, pop_or_panic, hset, parent_or_panic, hlink₁]
      exact hrun
    · intro j
      rw [hpar j, set_size_parentOf hset]
    · intro x
      rw [hchd x, set_size_children hset]

theorem children_ge_of_mono {t : Tree} (hm : ParentMono t) {x : Nat}
    (hx : t.nodes.size ≤ x) : t.children x = [] := by
  apply List.eq_nil_iff_forall_not_mem.mpr
  intro j hj
  have hpar := Tree.mem_children.mp hj
  have h1 := hm j x hpar
  have h2 := Tree.parentOf_some_lt hpar
  omega

theorem closed_mono {t : Tree} {ex ex' : List Nat} (h : Closed t ex)
    (hsub : ∀ x, x ∈ ex → x ∈ ex') : Closed t ex' := by
  intro x hx
  exact h x (fun hmem => hx (hsub x hmem))

/-- Writing a size into the open chain head (or the root) keeps every closed
node's directory-sum property. -/
theorem closed_set_size_head {t t' : Tree} {s : Nat} {c ss : List Nat}
    {par : Nat} (hroot : t.parentOf 0 = none) (hch : ChainF t c ss par)
    (hset : set_size_or_panic t par s = some t') (hcl : Closed t (0 :: c)) :
    Closed t' (0 :: c) := by
  intro x hx hcne
  have hxpar : x ≠ par := fun hcon => hx (hcon ▸ chainF_head_mem hch)
  rw [set_size_sizeAt_ne hset hxpar]
  have hcs : t'.childSizeSum x = t.childSizeSum x := by
    apply set_size_childSizeSum hset
    cases hch with
    | nil =>
      rw [hroot]
      intro hcon
      cases hcon
    | cons hrest hlink ha =>
      rw [hlink]
      intro hcon
      injection hcon with hc2
      apply hx
      rcases List.mem_cons.mp (chainF_head_mem hrest) with h1 | h2
      · rw [← hc2, h1]
        exact List.mem_cons_self _ _
      · rw [← hc2]
        exact List.mem_cons_of_mem _ (List.mem_cons_of_mem _ h2)
  rw [hcs]
  apply hcl x hx
  rw [← set_size_children hset]
  exact hcne

/-- Adding a child under an exempt parent keeps every closed node's
directory-sum property. -/
theorem closed_add_child {t : Tree} {p : Nat} (d : EntryData) {c : List Nat}
    (hm : ParentMono t) (hp : p < t.nodes.size)
    (hmem : p ∈ (0 :: c : List Nat)) (hcl : Closed t (0 :: c)) :
    Closed (t.add_child p d) (0 :: c) := by
  intro x hx hcne
  rcases Nat.lt_trichotomy x t.nodes.size with hxlt | hxeq | hxgt
  · have hxp : p ≠ x := fun hcon => hx (hcon ▸ hmem)
    rw [Tree.add_child_sizeAt_old t p d hxlt,
      Tree.add_child_childSizeSum_ne t p d hxp]
    apply hcl x hx
    rw [Tree.add_child_children, if_neg hxp, List.append_nil] at hcne
    exact hcne
  · subst hxeq
    rw [add_child_children_new hm hp d] at hcne
    exact absurd rfl hcne
  · have hnil : (t.add_child p d).children x = [] := by
      apply children_ge_of_mono (parentMono_add_child hm hp d)
      rw [Tree.add_child_size]
      omega
    rw [hnil] at hcne
    exact absurd rfl hcne

theorem finv_bump {st : WalkState} {c : List Nat} (hs : FInv st c) :
    FInv { st with t.entries_traversed := st.t.entries_traversed + 1 } c :=
  ⟨hs.root0, hs.rootIn, hs.rootPar, hs.mono, hs.chain, hs.chainLen, hs.prevOk,
   hs.curEq, hs.done, hs.prevKids⟩

theorem finv_io_bump {st : WalkState} {c : List Nat} (hs : FInv st c) :
    FInv { st with t.io_errors := st.t.io_errors + 1 } c :=
  ⟨hs.root0, hs.rootIn, hs.rootPar, hs.mono, hs.chain, hs.chainLen, hs.prevOk,
   hs.curEq, hs.done, hs.prevKids⟩

/-- The `Err`-item step preserves the full invariant: away from depth 0 it only
counts the error; at depth 0 it adds a zero-size placeholder under the root,
which changes no sum. -/
theorem finv_step_err {path : String} {st : WalkState} {c : List Nat}
    (hs : FInv st c) :
    FInv (process_err_entry path st) c ∧
    (process_err_entry path st).previous_depth = st.previous_depth ∧
    (process_err_entry path st).previous_node_idx = st.previous_node_idx ∧
    (process_err_entry path st).parent_node_idx = st.parent_node_idx ∧
    (∀ j p, st.t.tree.parentOf j = some p →
      (process_err_entry path st).t.tree.parentOf j = some p) ∧
    (process_err_entry path st).t.tree.sizeAt st.previous_node_idx =
      st.t.tree.sizeAt st.previous_node_idx := by
  have hprev_lt : st.previous_node_idx < st.t.tree.nodes.size := by
    rcases hs.prevOk with ⟨h1, _⟩ | h1
    · rw [h1]
      exact hs.rootIn
    · exact Tree.parentOf_some_lt h1
  by_cases h0 : st.previous_depth = 0
  · have hc : c = [] := List.length_eq_zero.mp (hs.chainLen.trans h0)
    subst hc
    obtain ⟨hss, hpar0⟩ := chainF_nil_inv hs.chain
    have heq : process_err_entry path st =
        { st with
          t := { st.t with
            tree := st.t.tree.add_child st.parent_node_idx
              { EntryData.default with name := path },
            io_errors := st.t.io_errors + 1 } } := by
      simp only [process_err_entry, if_pos h0, Tree.add_child]
    rw [heq]
    have hplt : st.parent_node_idx < st.t.tree.nodes.size := by
      rw [hpar0]
      exact hs.rootIn
    refine ⟨⟨hs.root0, ?_, ?_, ?_, ?_, hs.chainLen, ?_, ?_, ?_, ?_⟩,
      rfl, rfl, rfl, ?_, ?_⟩
    · show 0 < (st.t.tree.add_child st.parent_node_idx
        { EntryData.default with name := path }).nodes.size
      rw [Tree.add_child_size]
      omega
    · show (st.t.tree.add_child st.parent_node_idx
        { EntryData.default with name := path }).parentOf 0 = none
      rw [Tree.add_child_parentOf_old _ _ _ hs.rootIn]
      exact hs.rootPar
    · exact parentMono_add_child hs.mono hplt _
    · show ChainF _ [] st.sizes_per_depth_level st.parent_node_idx
      rw [hss, hpar0]
      exact ChainF.nil
    · rcases hs.prevOk with ⟨h1, h2⟩ | h1
      · exact Or.inl ⟨h1, h2⟩
      · exact Or.inr (Tree.add_child_preserves _ _ h1)
    · show st.current_size_at_depth =
        (st.t.tree.add_child st.parent_node_idx
          { EntryData.default with name := path }).childSizeSum
          st.parent_node_idx
      rw [Tree.add_child_childSizeSum_eq, ← hs.curEq]
      simp [EntryData.default]
    · exact closed_add_child _ hs.mono hplt
        (by rw [hpar0]; exact List.mem_cons_self _ _) hs.done
    · rcases hs.prevKids with h1 | h1
      · by_cases hp0 : st.previous_node_idx = 0
        · exact Or.inr hp0
        · refine Or.inl ?_
          show (st.t.tree.add_child st.parent_node_idx
            { EntryData.default with name := path }).children
            st.previous_node_idx = []
          rw [Tree.add_child_children, if_neg, h1]
          · rfl
          · rw [hpar0]
            exact fun hcon => hp0 hcon.symm
      · exact Or.inr h1
    · intro j p hj
      exact Tree.add_child_preserves _ _ hj
    · show (st.t.tree.add_child st.parent_node_idx
        { EntryData.default with name := path }).sizeAt st.previous_node_idx
        = st.t.tree.sizeAt st.previous_node_idx
      exact Tree.add_child_sizeAt_old _ _ _ hprev_lt
  · have heq : process_err_entry path st =
        { st with t := { st.t with io_errors := st.t.io_errors + 1 } } := by
      simp only [process_err_entry, if_neg h0]
    rw [heq]
    exact ⟨⟨hs.root0, hs.rootIn, hs.rootPar, hs.mono, hs.chain, hs.chainLen,
      hs.prevOk, hs.curEq, hs.done, hs.prevKids⟩,
      rfl, rfl, rfl, fun j p hj => hj, rfl⟩

/-- The `Ok`-entry step preserves the full invariant.  A descending step
additionally needs to know (from the caller, which tracks the Walker contract)
that the node being descended into is linked to the current parent and carries
size 0 — a directory's own computed size. -/
theorem finv_step_ok {opts : WalkOptions} {path : String} {did : Nat}
    {st : WalkState} {c : List Nat} {e : Entry} (hs : FInv st c)
    (hd : e.depth ≤ st.previous_depth + 1)
    (hdesc : e.depth = st.previous_depth + 1 →
      st.t.tree.parentOf st.previous_node_idx = some st.parent_node_idx ∧
      st.t.tree.sizeAt st.previous_node_idx = 0) :
    ∃ st' c', process_ok_entry opts path did st e = Except.ok st' ∧
      FInv st' c' ∧ st'.previous_depth = e.depth ∧
      st'.t.tree.parentOf st'.previous_node_idx =
        some st'.parent_node_idx ∧
      (DirLike e → st'.t.tree.sizeAt st'.previous_node_idx = 0) := by
  rcases Nat.lt_trichotomy e.depth st.previous_depth with hlt | heq | hgt
  · -- unwind case
    rw [process_ok_entry_lt opts path did st e hlt]
    obtain ⟨t₁, par₁, hrun, hsz₁, hpar₁, hchd₁, hch₁, hcl₁, hm₁⟩ :=
      mid_unwind_ok_full (st.previous_depth - e.depth) hs.mono hs.chain hs.done
        (by rw [hs.chainLen]; omega)
    rw [hs.curEq, hrun]
    simp only []
    have hroot₁ : 0 < t₁.nodes.size := by
      have h2 := hs.rootIn
      omega
    obtain ⟨t₂, hset⟩ := set_size_some
      (t₁.childSizeSum par₁ + (entry_accounting opts did st.inodes e).1)
      (chainF_par_lt hch₁ hroot₁)
    rw [hset]
    simp only []
    have hsz₂ : t₂.nodes.size = t₁.nodes.size := set_size_size hset
    have hm₂ : ParentMono t₂ := parentMono_set_size hm₁ hset
    have hch₂ : ChainF t₂ (c.drop (st.previous_depth - e.depth))
        (st.sizes_per_depth_level.drop (st.previous_depth - e.depth)) par₁ :=
      chainF_set_size hm₁ hset hch₁ (Or.inl rfl)
    have hrootPar₁ : t₁.parentOf 0 = none := by
      rw [hpar₁ 0]
      exact hs.rootPar
    have hcl₂ : Closed t₂ (0 :: c.drop (st.previous_depth - e.depth)) :=
      closed_set_size_head hrootPar₁ hch₁ hset hcl₁
    have hsum₂ : t₂.childSizeSum par₁ = t₁.childSizeSum par₁ := by
      apply set_size_childSizeSum hset
      rcases hpp : t₁.parentOf par₁ with _ | b
      · simp
      · intro hcon
        injection hcon with hb
        have := hm₁ par₁ b hpp
        omega
    have hplt₂ : par₁ < t₂.nodes.size := by
      have := chainF_par_lt hch₁ hroot₁
      omega
    refine ⟨_, c.drop (st.previous_depth - e.depth), rfl,
      ⟨hs.root0, ?_, ?_, ?_, ?_, ?_, ?_, ?_, ?_, ?_⟩, rfl, ?_, ?_⟩
    · show 0 < (t₂.add_child par₁ _).nodes.size
      rw [Tree.add_child_size]
      omega
    · show (t₂.add_child par₁ _).parentOf 0 = none
      have h0 : 0 < t₂.nodes.size := by omega
      rw [Tree.add_child_parentOf_old _ _ _ h0, set_size_parentOf hset,
        hpar₁ 0]
      exact hs.rootPar
    · exact parentMono_add_child hm₂ hplt₂ _
    · exact chainF_add_child hm₂ hch₂ (Nat.le_refl par₁) _
    · show (c.drop (st.previous_depth - e.depth)).length = e.depth
      rw [List.length_drop, hs.chainLen]
      omega
    · exact Or.inr (Tree.add_child_parentOf_new t₂ par₁ _)
    · show t₁.childSizeSum par₁ + (entry_accounting opts did st.inodes e).1 =
        (t₂.add_child par₁ _).childSizeSum par₁
      rw [Tree.add_child_childSizeSum_eq, hsum₂]
    · exact closed_add_child _ hm₂ hplt₂ (chainF_head_mem hch₂) hcl₂
    · exact Or.inl (add_child_children_new hm₂ hplt₂ _)
    · show (t₂.add_child par₁ _).parentOf t₂.nodes.size = some par₁
      exact Tree.add_child_parentOf_new t₂ par₁ _
    · intro hdl
      show (t₂.add_child par₁ _).sizeAt t₂.nodes.size = 0
      rw [Tree.add_child_sizeAt_new]
      exact dirlike_accounting_zero opts did st.inodes e hdl
  · -- same-depth case
    rw [process_ok_entry_eq_depth opts path did st e heq]
    have hplt : st.parent_node_idx < st.t.tree.nodes.size :=
      chainF_par_lt hs.chain hs.rootIn
    refine ⟨_, c, rfl,
      ⟨hs.root0, ?_, ?_, ?_, ?_, ?_, ?_, ?_, ?_, ?_⟩, rfl, ?_, ?_⟩
    · show 0 < (st.t.tree.add_child st.parent_node_idx _).nodes.size
      rw [Tree.add_child_size]
      have := hs.rootIn
      omega
    · show (st.t.tree.add_child st.parent_node_idx _).parentOf 0 = none
      rw [Tree.add_child_parentOf_old _ _ _ hs.rootIn]
      exact hs.rootPar
    · exact parentMono_add_child hs.mono hplt _
    · exact chainF_add_child hs.mono hs.chain (Nat.le_refl _) _
    · show c.length = e.depth
      rw [hs.chainLen, heq]
    · exact Or.inr (Tree.add_child_parentOf_new _ _ _)
    · show st.current_size_at_depth + (entry_accounting opts did st.inodes e).1
        = (st.t.tree.add_child st.parent_node_idx _).childSizeSum
          st.parent_node_idx
      rw [Tree.add_child_childSizeSum_eq, ← hs.curEq]
    · exact closed_add_child _ hs.mono hplt (chainF_head_mem hs.chain) hs.done
    · exact Or.inl (add_child_children_new hs.mono hplt _)
    · show (st.t.tree.add_child st.parent_node_idx _).parentOf
        st.t.tree.nodes.size = some st.parent_node_idx
      exact Tree.add_child_parentOf_new _ _ _
    · intro hdl
      show (st.t.tree.add_child st.parent_node_idx _).sizeAt
        st.t.tree.nodes.size = 0
      rw [Tree.add_child_sizeAt_new]
      exact dirlike_accounting_zero opts did st.inodes e hdl
  · -- descend case
    have hde : e.depth = st.previous_depth + 1 := by omega
    obtain ⟨hprev, hz⟩ := hdesc hde
    have hkids : st.t.tree.children st.previous_node_idx = [] := by
      rcases hs.prevKids with h1 | h1
      · exact h1
      · rw [h1] at hprev
        rw [hs.rootPar] at hprev
        cases hprev
    have hprevlt : st.previous_node_idx < st.t.tree.nodes.size :=
      Tree.parentOf_some_lt hprev
    have hparlt : st.parent_node_idx < st.previous_node_idx :=
      hs.mono _ _ hprev
    have hcsp : st.t.tree.childSizeSum st.previous_node_idx = 0 := by
      unfold Tree.childSizeSum
      rw [hkids]
      rfl
    rw [process_ok_entry_gt opts path did st e hgt]
    refine ⟨_, st.previous_node_idx :: c, rfl,
      ⟨hs.root0, ?_, ?_, ?_, ?_, ?_, ?_, ?_, ?_, ?_⟩, rfl, ?_, ?_⟩
    · show 0 < (st.t.tree.add_child st.previous_node_idx _).nodes.size
      rw [Tree.add_child_size]
      have := hs.rootIn
      omega
    · show (st.t.tree.add_child st.previous_node_idx _).parentOf 0 = none
      rw [Tree.add_child_parentOf_old _ _ _ hs.rootIn]
      exact hs.rootPar
    · exact parentMono_add_child hs.mono hprevlt _
    · show ChainF (st.t.tree.add_child st.previous_node_idx _)
        (st.previous_node_idx :: c)
        (st.current_size_at_depth :: st.sizes_per_depth_level)
        st.previous_node_idx
      refine ChainF.cons
        (chainF_add_child hs.mono hs.chain (by omega) _)
        (Tree.add_child_preserves _ _ hprev) ?_
      rw [Tree.add_child_childSizeSumExcept_ne _ _ _ _ (by omega),
        hs.curEq, Tree.childSizeSum_split hprev, hz]
      omega
    · show (st.previous_node_idx :: c).length = e.depth
      simp only [List.length_cons]
      rw [hs.chainLen]
      omega
    · exact Or.inr (Tree.add_child_parentOf_new _ _ _)
    · show (entry_accounting opts did st.inodes e).1 =
        (st.t.tree.add_child st.previous_node_idx _).childSizeSum
          st.previous_node_idx
      rw [Tree.add_child_childSizeSum_eq, hcsp]
      show (entry_accounting opts did st.inodes e).1 =
        0 + (entry_accounting opts did st.inodes e).1
      omega
    · refine closed_add_child _ hs.mono hprevlt
        (List.mem_cons_of_mem 0 (List.mem_cons_self _ _)) ?_
      refine closed_mono hs.done ?_
      intro x hx
      rcases List.mem_cons.mp hx with h1 | h2
      · rw [h1]
        exact List.mem_cons_self _ _
      · exact List.mem_cons_of_mem 0 (List.mem_cons_of_mem _ h2)
    · exact Or.inl (add_child_children_new hs.mono hprevlt _)
    · show (st.t.tree.add_child st.previous_node_idx _).parentOf
        st.t.tree.nodes.size = some st.previous_node_idx
      exact Tree.add_child_parentOf_new _ _ _
    · intro hdl
      show (st.t.tree.add_child st.previous_node_idx _).sizeAt
        st.t.tree.nodes.size = 0
      rw [Tree.add_child_sizeAt_new]
      exact dirlike_accounting_zero opts did st.inodes e hdl

/-- A stream matched against the empty forest holds no `Ok` item. -/
theorem matches_no_ok {d : Nat} {s : List (Except Unit Entry)} {f : List ETree}
    (hm : Matches d s f) : f = [] → ∀ e : Entry, Except.ok e ∉ s := by
  induction hm with
  | nil d =>
    intro _ e h
    cases h
  | err d u hm ih =>
    intro hf e h
    rcases List.mem_cons.mp h with h1 | h2
    · cases h1
    · exact ih hf e h2
  | cons d hdepth hm₁ hm₂ ih₁ ih₂ =>
    intro hf
    cases hf

/-- The full run lemma: a stream honouring the Walker contract whose forest
puts children only under directory-like entries preserves the full invariant
through the entry loop (or exits through the callback). -/
theorem run_full {d : Nat} {s : List (Except Unit Entry)} {f : List ETree}
    (hm : Matches d s f) :
    ∀ (opts : WalkOptions) (path : String) (did : Nat)
      (update : Traversal → Except Unit Bool) (fires : Nat → Bool)
      (st : WalkState) (c : List Nat),
      (∀ tr ∈ f, DirsOnly tr) →
      FInv st c → d ≤ st.previous_depth + 1 →
      (d = st.previous_depth + 1 → HasOkE s →
        st.t.tree.parentOf st.previous_node_idx = some st.parent_node_idx ∧
        st.t.tree.sizeAt st.previous_node_idx = 0) →
      (∃ ex, s.foldlM (process_entry opts path did update fires) st =
          .error ex ∧ ex ≠ RunExit.abort) ∨
      (∃ st' c', s.foldlM (process_entry opts path did update fires) st =
          Except.ok st' ∧ FInv st' c' ∧ d ≤ st'.previous_depth + 1) := by
  induction hm with
  | nil d =>
    intro opts path did update fires st c hdo hs hd hdesc
    exact Or.inr ⟨st, c, rfl, hs, hd⟩
  | err d u hm ih =>
    intro opts path did update fires st c hdo hs hd hdesc
    rw [List.foldlM_cons, process_entry_err_eq]
    obtain ⟨hs₂, hpd₂, hprev₂, hpar₂, hmono₂, hsizeAt₂⟩ :=
      finv_step_err (finv_bump hs)
    rcases check_update_cases update fires
        (process_err_entry path
          { st with t.entries_traversed := st.t.entries_traversed + 1 }) with
      hok | ⟨hc, _⟩ | ⟨u₂, hc, _⟩
    · rw [hok, except_bind_ok]
      apply ih opts path did update fires _ c hdo hs₂
      · rw [hpd₂]
        exact hd
      · intro hde hhas
        have hd2 : d = st.previous_depth + 1 := by
          rw [hpd₂] at hde
          exact hde
        obtain ⟨e2, he2⟩ := hhas
        obtain ⟨hp, hz⟩ := hdesc hd2 ⟨e2, List.mem_cons_of_mem _ he2⟩
        constructor
        · rw [hprev₂, hpar₂]
          exact hmono₂ _ _ hp
        · rw [hprev₂, hsizeAt₂]
          exact hz
    · rw [hc, except_bind_error]
      exact Or.inl ⟨RunExit.cancelled, rfl, by simp⟩
    · rw [hc, except_bind_error]
      exact Or.inl ⟨RunExit.errored, rfl, by simp⟩
  | cons d hdepth hm₁ hm₂ ih₁ ih₂ =>
    intro opts path did update fires st c hdo hs hd hdesc
    rw [List.foldlM_cons, process_entry_ok_eq]
    rename_i e s₁ s₂ cs fr
    have hdo_node : DirsOnly (.node e cs) := hdo _ (List.mem_cons_self _ _)
    obtain ⟨hDL, hcs_do⟩ : (cs ≠ [] → DirLike e) ∧ ∀ tr ∈ cs, DirsOnly tr := by
      cases hdo_node with
      | mk h1 h2 => exact ⟨h1, h2⟩
    obtain ⟨st₂, c₂, hok, hs₂, hpd₂, hlink₂, hdl₂⟩ :=
      @finv_step_ok opts path did
        { st with t.entries_traversed := st.t.entries_traversed + 1 } c e
        (finv_bump hs) (by rw [hdepth]; exact hd)
        (by
          intro hde
          rw [hdepth] at hde
          exact hdesc hde ⟨e, List.mem_cons_self _ _⟩)
    rw [hok, except_dot_bind_ok]
    rcases check_update_cases update fires st₂ with
      hcu | ⟨hc, _⟩ | ⟨u₂, hc, _⟩
    · rw [hcu, except_bind_ok, List.foldlM_append]
      have hpre₁ : d + 1 ≤ st₂.previous_depth + 1 := by
        rw [hpd₂, hdepth]
      rcases ih₁ opts path did update fires st₂ c₂ hcs_do hs₂ hpre₁
          (by
            intro _ hhas
            refine ⟨hlink₂, hdl₂ (hDL ?_)⟩
            intro hcs
            obtain ⟨e2, he2⟩ := hhas
            exact matches_no_ok hm₁ hcs e2 he2)
          with ⟨ex, herr, hex⟩ | ⟨st₃, c₃, hfold₃, hs₃, hd₃⟩
      · rw [herr, except_bind_error]
        exact Or.inl ⟨ex, rfl, hex⟩
      · rw [hfold₃, except_bind_ok]
        exact ih₂ opts path did update fires st₃ c₃
          (fun tr htr => hdo tr (List.mem_cons_of_mem _ htr)) hs₃ (by omega)
          (fun hcon => absurd hcon (by omega))
    · rw [hc, except_bind_error]
      exact Or.inl ⟨RunExit.cancelled, rfl, by simp⟩
    · rw [hc, except_bind_error]
      exact Or.inl ⟨RunExit.errored, rfl, by simp⟩

theorem finv_init : FInv init_walk_state [] := by
  have hone : init_walk_state.t.tree.nodes.size = 1 := rfl
  refine ⟨rfl, ?_, rfl, ?_, ChainF.nil, rfl, Or.inl ⟨rfl, rfl⟩, ?_, ?_,
    Or.inr rfl⟩
  · show 0 < (1 : Nat)
    omega
  · intro j p hp
    rcases j with _ | j2
    · rw [show init_walk_state.t.tree.parentOf 0 = none from rfl] at hp
      cases hp
    · rw [parentOf_none_of_ge (by omega)] at hp
      cases hp
  · rfl
  · intro x hx hcne
    exact absurd (show init_walk_state.t.tree.children x = [] from rfl) hcne

theorem run_full_roots (opts : WalkOptions)
    (update : Traversal → Except Unit Bool) (fires : Nat → Bool) :
    ∀ (input : List Root),
      (∀ r ∈ input, ∀ did, r.device_id = Except.ok did →
        ∃ f, Matches 0 r.entries f ∧ ∀ tr ∈ f, DirsOnly tr) →
      ∀ (st : WalkState) (c : List Nat), FInv st c →
      (∃ ex, input.foldlM (process_root opts update fires) st = .error ex ∧
        ex ≠ RunExit.abort) ∨
      (∃ st' c', input.foldlM (process_root opts update fires) st =
        Except.ok st' ∧ FInv st' c') := by
  intro input
  induction input with
  | nil =>
    intro hv st c hs
    exact Or.inr ⟨st, c, rfl, hs⟩
  | cons r rest ih =>
    intro hv st c hs
    rw [List.foldlM_cons]
    rcases hdev : r.device_id with u | did
    · have hpr : process_root opts update fires st r =
          Except.ok { st with t.io_errors := st.t.io_errors + 1 } := by
        simp [process_root, hdev]
      rw [hpr, except_bind_ok]
      exact ih (fun q hq => hv q (List.mem_cons_of_mem r hq)) _ c
        (finv_io_bump hs)
    · have hpr : process_root opts update fires st r =
          r.entries.foldlM (process_entry opts r.path did update fires) st := by
        simp [process_root, hdev]
      rw [hpr]
      obtain ⟨f, hmf, hdo⟩ := hv r (List.mem_cons_self r rest) did hdev
      rcases run_full hmf opts r.path did update fires st c hdo hs (by omega)
          (fun hcon => absurd hcon (by omega)) with
        ⟨ex, herr, hex⟩ | ⟨st₂, c₂, hfold, hs₂, _⟩
      · rw [herr, except_bind_error]
        exact Or.inl ⟨ex, rfl, hex⟩
      · rw [hfold, except_bind_ok]
        exact ih (fun q hq => hv q (List.mem_cons_of_mem r hq)) st₂ c₂ hs₂

theorem recompute_eq (t : Traversal) :
    t.recompute_root_size = t.tree.childSizeSum t.root_index := rfl

/-- A successful `from_walker` run on a contract-honouring walker leaves a tree
in which every non-root node with children carries the sum of its children's
sizes, the root carries the recomputed sum of its children, and `total_bytes`
records it. -/
theorem from_walker_full (opts : WalkOptions) (input : List Root)
    (update : Traversal → Except Unit Bool) (fires : Nat → Bool)
    (hv : ∀ r ∈ input, ∀ did, r.device_id = Except.ok did →
      ∃ f, Matches 0 r.entries f ∧ ∀ tr ∈ f, DirsOnly tr)
    (t : Traversal)
    (hok : Traversal.from_walker opts input update fires = Except.ok t) :
    t.root_index = 0 ∧
    ParentMono t.tree ∧
    (∀ x, x ≠ 0 → t.tree.children x ≠ [] →
      t.tree.sizeAt x = t.tree.childSizeSum x) ∧
    t.tree.sizeAt 0 = t.tree.childSizeSum 0 ∧
    t.total_bytes = some (t.tree.childSizeSum 0) := by
  unfold Traversal.from_walker at hok
  rcases run_full_roots opts update fires input hv init_walk_state [] finv_init
    with ⟨ex, herr, hex⟩ | ⟨st, c, hfold, hs⟩
  · rw [herr, except_bind_error] at hok
    cases hok
  · rw [hfold, except_bind_ok] at hok
    obtain ⟨t₁, hfu, hsz₁, hpar₁, hchd₁, hcl₁, hm₁⟩ :=
      final_unwind_full c hs.mono hs.chain hs.done st.current_size_at_depth 0
        (by rw [hs.curEq]; omega)
    rw [hs.chainLen] at hfu
    rw [hfu, except_bind_ok] at hok
    simp only [] at hok
    have hri : ({ st.t with tree := t₁ } : Traversal).root_index = 0 :=
      hs.root0
    have hrootPar₁ : t₁.parentOf 0 = none := by
      rw [hpar₁ 0]
      exact hs.rootPar
    split at hok
    · cases hok
    · next t₂ hset =>
      injection hok with hok2
      subst hok2
      rw [hri] at hset
      have hm₂ : ParentMono t₂ := parentMono_set_size hm₁ hset
      have hnotchild : ∀ x : Nat, t₁.parentOf 0 ≠ some x := by
        intro x hcon
        rw [hrootPar₁] at hcon
        cases hcon
      refine ⟨hs.root0, hm₂, ?_, ?_, ?_⟩
      · intro x hx hcne
        show t₂.sizeAt x = t₂.childSizeSum x
        rw [set_size_sizeAt_ne hset hx,
          set_size_childSizeSum hset (hnotchild x)]
        apply hcl₁ x (by simpa using hx)
        rw [← set_size_children hset]
        exact hcne
      · show t₂.sizeAt 0 = t₂.childSizeSum 0
        rw [set_size_sizeAt_eq hset, set_size_childSizeSum hset (hnotchild 0)]
        rfl
      · show some (t₁.childSizeSum st.t.root_index) =
          some (t₂.childSizeSum 0)
        rw [hs.root0, set_size_childSizeSum hset (hnotchild 0)]

/-- From the per-node children-sum property, every node's size is the total
counted size of the leaves of its subtree. -/
theorem sizeAt_eq_subtreeLeafSum {t : Tree} (hm : ParentMono t)
    (hcl : ∀ x, t.children x ≠ [] → t.sizeAt x = t.childSizeSum x) :
    ∀ x, t.sizeAt x = t.subtreeLeafSum x := by
  have H : ∀ (n : Nat) (x : Nat), t.nodes.size - x ≤ n →
      t.sizeAt x = t.subtreeLeafSum x := by
    intro n
    induction n with
    | zero =>
      intro x hx
      have hnil : t.children x = [] := children_ge_of_mono hm (by omega)
      unfold Tree.subtreeLeafSum
      rw [if_pos hnil]
    | succ n ih =>
      intro x hx
      by_cases hnil : t.children x = []
      · unfold Tree.subtreeLeafSum
        rw [if_pos hnil]
      · unfold Tree.subtreeLeafSum
        rw [if_neg hnil, hcl x hnil]
        unfold Tree.childSizeSum
        apply congrArg
        apply List.map_congr_left
        intro j hj
        have hlt : x < j := hm j x (Tree.mem_children.mp hj)
        have hsz : j < t.nodes.size := Tree.children_mem_lt hj
        rw [dif_pos ⟨hlt, hsz⟩]
        exact ih j (by omega)
  intro x
  exact H t.nodes.size x (by omega)

/-- C6: for a successful `from_walker` run whose walker honours the pre-order
depth-first contract and puts children only under directory-like entries,
every non-root node with children carries exactly the sum of its direct
children's sizes (a childless directory keeps its own computed size, which the
gate makes 0 for any directory-flagged entry — last conjunct), hence
recursively every node's size is the total counted leaf size of its subtree;
the synthetic root's size is recomputed at the end as the sum of its direct
children's sizes (`recompute_root_size`) rather than accumulated incrementally,
and `total_bytes` is exactly that recomputed sum. -/
theorem claim_C6 (opts : WalkOptions) (input : List Root)
    (update : Traversal → Except Unit Bool) (fires : Nat → Bool)
    (t : Traversal)
    (hok : Traversal.from_walker opts input update fires = Except.ok t)
    (hv : ∀ r ∈ input, ∀ did, r.device_id = Except.ok did →
      ∃ f, Matches 0 r.entries f ∧ ∀ tr ∈ f, DirsOnly tr) :
    (∀ x, x ≠ t.root_index → t.tree.children x ≠ [] →
      t.tree.sizeAt x = t.tree.childSizeSum x) ∧
    t.tree.sizeAt t.root_index = t.tree.childSizeSum t.root_index ∧
    t.total_bytes = some t.recompute_root_size ∧
    t.recompute_root_size = t.tree.childSizeSum t.root_index ∧
    (∀ x, t.tree.sizeAt x = t.tree.subtreeLeafSum x) ∧
    (∀ (e : Entry) (did : Nat) (inodes : InodeFilter), DirLike e →
      (entry_accounting opts did inodes e).1 = 0) := by
  obtain ⟨hri, hm, hcl, hroot, htb⟩ :=
    from_walker_full opts input update fires hv t hok
  rw [hri]
  refine ⟨hcl, hroot, ?_, ?_, ?_, ?_⟩
  · rw [htb, recompute_eq, hri]
  · rw [recompute_eq, hri]
  · apply sizeAt_eq_subtreeLeafSum hm
    intro x hx
    by_cases hx0 : x = 0
    · subst hx0
      exact hroot
    · exact hcl x hx0 hx
  · intro e did inodes hdl
    exact dirlike_accounting_zero opts did inodes e hdl

theorem claim_C6_witness :
    ∃ t, Traversal.from_walker {} [c6Root] (fun _ => Except.ok false)
        (fun _ => false) = Except.ok t ∧
      t.tree.sizeAt t.root_index = t.tree.childSizeSum t.root_index ∧
      t.total_bytes = some t.recompute_root_size ∧
      (∀ x, t.tree.sizeAt x = t.tree.subtreeLeafSum x) := by
  have hok : Traversal.from_walker {} [c6Root] (fun _ => Except.ok false)
      (fun _ => false) = Except.ok c6T := rfl
  have hv : ∀ r ∈ [c6Root], ∀ did, r.device_id = Except.ok did →
      ∃ f, Matches 0 r.entries f ∧ ∀ tr ∈ f, DirsOnly tr := by
    intro r hr did hdev
    have hre : r = c6Root := by
      simpa using hr
    subst hre
    refine ⟨[ETree.node c6dir [ETree.node (c6file "a" 1 5) [],
      ETree.node (c6file "b" 1 7) []]], ?_, ?_⟩
    · show Matches 0 (Except.ok c6dir ::
        ([Except.ok (c6file "a" 1 5), Except.ok (c6file "b" 1 7)] ++ [])) _
      refine Matches.cons 0 rfl ?_ (Matches.nil 0)
      show Matches 1 (Except.ok (c6file "a" 1 5) ::
        ([] ++ [Except.ok (c6file "b" 1 7)])) _
      refine Matches.cons 1 rfl (Matches.nil 2) ?_
      show Matches 1 (Except.ok (c6file "b" 1 7) :: ([] ++ [])) _
      exact Matches.cons 1 rfl (Matches.nil 2) (Matches.nil 1)
    · intro tr htr
      have htre : tr = ETree.node c6dir [ETree.node (c6file "a" 1 5) [],
          ETree.node (c6file "b" 1 7) []] := by
        simpa using htr
      subst htre
      refine DirsOnly.mk (fun _ m hm2 => Option.noConfusion hm2) ?_
      intro t2 ht2
      rcases List.mem_cons.mp ht2 with h1 | h2
      · subst h1
        exact DirsOnly.mk (fun hne => absurd rfl hne)
          (fun t3 ht3 => absurd ht3 (List.not_mem_nil t3))
      · rcases List.mem_cons.mp h2 with h3 | h4
        · subst h3
          exact DirsOnly.mk (fun hne => absurd rfl hne)
            (fun t3 ht3 => absurd ht3 (List.not_mem_nil t3))
        · cases h4
  have h := claim_C6 {} [c6Root] (fun _ => Except.ok false) (fun _ => false)
    c6T hok hv
  exact ⟨c6T, hok, h.2.1, h.2.2.1, h.2.2.2.2.1⟩

end Dua

